import Mathlib

/-
Verification of the pytest-collector repository (src/pytest_collector/collector.py).

Strings are modelled as `List Char`.  Python `dict`s that the code builds are
always keyed by the stored node's own "name" entry (every write site uses
`d[x["name"]] = x`), and Python dicts preserve insertion order, so a dict of
hierarchy nodes is modelled as the ordered list of its values; key membership
is name lookup, and updating an existing key replaces the value in place.
Fallible dictionary accesses (`d[k]` with a possibly missing key, `[0]` on a
possibly empty list, `.parent` on a possibly-None item) are modelled in
`Option`, `none` standing for the raised exception.
-/

/- ===== Python string primitives ===== -/

/-- Python `str.isspace` / the character class stripped by no-argument
`str.lstrip()`: ASCII whitespace, the C1 separators, NBSP and the Unicode
space and line/paragraph separator characters. -/
def pyIsSpace (c : Char) : Bool :=
  c == ' ' || c == '\t' || c == '\n' || c == '\x0b' || c == '\x0c' || c == '\r' ||
  c == '\x1c' || c == '\x1d' || c == '\x1e' || c == '\x1f' || c == '\x85' || c == '\xa0' ||
  c == ' ' || (' ' ≤ c && c ≤ ' ') || c == ' ' || c == ' ' ||
  c == ' ' || c == ' ' || c == '　'

/-- Line boundary characters of Python `str.splitlines` (besides the
two-character boundary `\r\n`, handled separately). -/
def isLineBoundary (c : Char) : Bool :=
  c == '\n' || c == '\r' || c == '\x0b' || c == '\x0c' ||
  c == '\x1c' || c == '\x1d' || c == '\x1e' || c == '\x85' ||
  c == ' ' || c == ' '

/-- Python `s.strip('\n')`: remove leading and trailing newline characters. -/
def pyStripNewlines (s : List Char) : List Char :=
  ((s.dropWhile (fun c => c == '\n')).reverse.dropWhile (fun c => c == '\n')).reverse

/-- Worker for `pySplitlines`; `acc` is the reversed current line.  A
boundary character ends the line; the two-character boundary `\r\n` is
consumed as one. -/
def splitlinesAux : List Char → List Char → List (List Char)
  | [], acc => [acc.reverse]
  | c :: rest, acc =>
    if isLineBoundary c then
      match rest with
      | [] => [acc.reverse]
      | r1 :: rest2 =>
        if c = '\r' ∧ r1 = '\n' then
          acc.reverse :: (if rest2.isEmpty then [] else splitlinesAux rest2 [])
        else
          acc.reverse :: splitlinesAux (r1 :: rest2) []
    else
      splitlinesAux rest (c :: acc)

/-- Python `str.splitlines()` (`keepends=False`). -/
def pySplitlines (s : List Char) : List (List Char) :=
  if s.isEmpty then [] else splitlinesAux s []

/-- Python `"\n".join(lines)`. -/
def joinNL : List (List Char) → List Char
  | [] => []
  | [l] => l
  | l :: rest => l ++ '\n' :: joinNL rest

/- ===== reindent (collector.py lines 7-32) ===== -/

/-- The per-line transformation of `reindent`:
`line[:leading_spaces].lstrip() + line[leading_spaces:]`. -/
def fixLine (k : Nat) (l : List Char) : List Char :=
  (l.take k).dropWhile pyIsSpace ++ l.drop k

/-- `leading_spaces = len(string) - len(string.lstrip(' '))`. -/
def leadingSpacesOf (s : List Char) : Nat :=
  s.length - (s.dropWhile (fun c => c == ' ')).length

/-- `reindent` from collector.py.  `if not string: return string`, then
`string = string.strip('\n')`,
`leading_spaces = len(string) - len(string.lstrip(' '))`, then each line of
`string.splitlines()` is mapped through `fixLine` and joined with newlines. -/
def reindent (s : List Char) : List Char :=
  if s = [] then s
  else
    let s1 := pyStripNewlines s
    joinNL ((pySplitlines s1).map (fixLine (leadingSpacesOf s1)))

/-- `reindent` applied to an optional string, as in
`reindent(item_obj.obj.__doc__)`: a missing docstring is Python `None`,
which is falsy, so `reindent` returns it unchanged. -/
def reindentOpt : Option (List Char) → Option (List Char)
  | none => none
  | some s => some (reindent s)

/- ===== Data model ===== -/

/-- A pytest collection item (`session.items` leaves and their parents).
`kind` is `type(item).__name__` (Module / Class / Function / Session...),
`doc` is the underlying object's `__doc__` (None when absent), `src` the
text `inspect.getsource` returns for the underlying object, and `parent`
the parent item (`None` for the session root). -/
inductive PyItem : Type where
  | mk (name : String) (kind : String) (doc : Option (List Char)) (src : List Char)
       (parent : Option PyItem)

def PyItem.name : PyItem → String
  | .mk n _ _ _ _ => n

def PyItem.kind : PyItem → String
  | .mk _ k _ _ _ => k

def PyItem.doc : PyItem → Option (List Char)
  | .mk _ _ d _ _ => d

def PyItem.src : PyItem → List Char
  | .mk _ _ _ s _ => s

def PyItem.parent : PyItem → Option PyItem
  | .mk _ _ _ _ p => p

/-- An intermediate hierarchy dict
`{"name": ..., "obj": ..., "children": {...}}`; `children = none` models a
dict without a `"children"` key (a leaf built by `get_test_module_tree`).
The children dict is represented as the ordered list of its values (its
keys always equal the stored node's `name`). -/
inductive Hier : Type where
  | mk (name : String) (obj : PyItem) (children : Option (List Hier))

def Hier.name : Hier → String
  | .mk n _ _ => n

def Hier.obj : Hier → PyItem
  | .mk _ o _ => o

def Hier.children : Hier → Option (List Hier)
  | .mk _ _ c => c

/-- Output record built by `collect_data`: `src` present iff taken in the
Function branch, `children` present iff taken in the other branch. -/
inductive TreeData : Type where
  | mk (type : String) (title : String) (doc : Option (List Char))
       (src : Option (List Char)) (children : Option (List TreeData))

def TreeData.type : TreeData → String
  | .mk ty _ _ _ _ => ty

def TreeData.title : TreeData → String
  | .mk _ ti _ _ _ => ti

def TreeData.doc : TreeData → Option (List Char)
  | .mk _ _ d _ _ => d

def TreeData.src : TreeData → Option (List Char)
  | .mk _ _ _ s _ => s

def TreeData.children : TreeData → Option (List TreeData)
  | .mk _ _ _ _ c => c

/- ===== Dict helpers (name-keyed ordered dicts) ===== -/

/-- Python `d[k]` / `k in d` on a name-keyed dict of hierarchy nodes. -/
def findByName (cs : List Hier) (k : String) : Option Hier :=
  cs.find? (fun h => h.name == k)

/-- Python `d[k] = v` when `k` is already a key: replace in place, keeping
insertion order. -/
def updateByName (cs : List Hier) (k : String) (v : Hier) : List Hier :=
  match cs with
  | [] => []
  | c :: rest => if c.name == k then v :: rest else c :: updateByName rest k v

/- ===== CollectorPlugin.get_test_module_tree (lines 82-101) ===== -/

/-- The `while level.parent is not None:` loop: wrap `hierarchy` in a node
for `level` and step to the parent, stopping at the item whose parent is
the (None-parented) session root. -/
def climb : PyItem → Hier → Hier
  | .mk _ _ _ _ none, h => h
  | .mk n k d s (some p), h =>
    climb p (Hier.mk n (PyItem.mk n k d s (some p)) (some [h]))

/-- `get_test_module_tree(test)`. `none` models the `AttributeError` raised
by `level.parent` when `test.parent` is `None`. -/
def getTestModuleTree (test : PyItem) : Option Hier :=
  match test.parent with
  | none => none
  | some lvl => some (climb lvl (Hier.mk test.name test none))

/- ===== CollectorPlugin.merge_child_to_parent (lines 103-119) ===== -/

mutual
/-- `merge_child_to_parent(parent, child)`, returning the updated parent.
`none` models the `KeyError` from `parent["children"]` when the parent
dict has no `"children"` key. -/
def mergeChildToParent (parent : Hier) (child : Hier) : Option Hier :=
  match parent with
  | .mk _ _ none => none
  | .mk pn po (some cs) =>
    match findByName cs child.name with
    | none => some (Hier.mk pn po (some (cs ++ [child])))
    | some existing =>
      match child with
      | .mk _ _ none => some (Hier.mk pn po (some cs))
      | .mk cn _ (some gcs) =>
        match mergeInto existing gcs with
        | none => none
        | some ex2 => some (Hier.mk pn po (some (updateByName cs cn ex2)))

/-- The `for grandchild in child["children"].values():` loop, threading the
in-place mutation of `parent["children"][child["name"]]`. -/
def mergeInto (parent : Hier) (gcs : List Hier) : Option Hier :=
  match gcs with
  | [] => some parent
  | g :: rest =>
    match mergeChildToParent parent g with
    | none => none
    | some p2 => mergeInto p2 rest
end

/- ===== CollectorPlugin.collect_data (lines 121-151) ===== -/

mutual
/-- `collect_data(item)`: type / title / doc from the underlying object,
plus `src` for Functions and recursively collected `children` otherwise.
`none` models the `KeyError` from `item["children"]` on a non-Function
item without a children dict. -/
def collectData : Hier → Option TreeData
  | .mk _ o none =>
    if o.kind == "Function" then
      some (TreeData.mk o.kind o.name (reindentOpt o.doc) (some (reindent o.src)) none)
    else
      none
  | .mk _ o (some cs) =>
    if o.kind == "Function" then
      some (TreeData.mk o.kind o.name (reindentOpt o.doc) (some (reindent o.src)) none)
    else
      match collectDataList cs with
      | none => none
      | some ds => some (TreeData.mk o.kind o.name (reindentOpt o.doc) none (some ds))

/-- The list comprehension
`[self.collect_data(child) for child in item["children"].values()]`. -/
def collectDataList : List Hier → Option (List TreeData)
  | [] => some []
  | c :: rest =>
    match collectData c, collectDataList rest with
    | some d, some ds => some (d :: ds)
    | _, _ => none
end

/- ===== CollectorPlugin.pytest_collection_finish (lines 55-80) ===== -/

/-- The `for test in session.items:` loop of `pytest_collection_finish`,
with `modules` the accumulated name-keyed dict of root trees.  `none`
models an uncaught exception: `AttributeError` from
`get_test_module_tree`, `KeyError` from `test_module["children"]`,
`IndexError` from `[0]`, or `KeyError` inside `merge_child_to_parent`. -/
def collectionFinishAux : List PyItem → List Hier → Option (List Hier)
  | [], modules => some modules
  | t :: rest, modules =>
    match getTestModuleTree t with
    | none => none
    | some tm =>
      match findByName modules tm.name with
      | none => collectionFinishAux rest (modules ++ [tm])
      | some existing =>
        match tm.children with
        | none => none
        | some cs =>
          match cs.head? with
          | none => none
          | some firstChild =>
            match mergeChildToParent existing firstChild with
            | none => none
            | some ex2 => collectionFinishAux rest (updateByName modules tm.name ex2)

/-- `pytest_collection_finish(session)`: build and merge the per-test
hierarchies, then `[self.collect_data(module) for module in
modules.values()]`, the value stored in `self._modules`. -/
def pytestCollectionFinish (items : List PyItem) : Option (List TreeData) :=
  match collectionFinishAux items [] with
  | none => none
  | some modules => collectDataList modules

/- ===== collect (lines 154-177) ===== -/

/-- `pytest.ExitCode.OK` (numeric value 0). -/
def exitCodeOK : Nat := 0

/-- `collect(tests_dir_path)` after `pytest.main` has returned `ret` and the
plugin holds `pluginModules` (`none` while never written): raise
`ValueError(ret)` unless the exit status is OK, otherwise return the
collected modules. -/
def collect (ret : Nat) (pluginModules : Option (List TreeData)) :
    Except Nat (Option (List TreeData)) :=
  if ret != exitCodeOK then Except.error ret else Except.ok pluginModules

/- ===== Analysis: ancestor chains and paths ===== -/

/-- The ancestors of an item that the `while level.parent is not None:` loop
wraps, bottom-most first, starting the walk at the given item: exactly the
ancestors whose own parent is not `None` (the session root is excluded). -/
def ancList : PyItem → List PyItem
  | .mk _ _ _ _ none => []
  | .mk n k d s (some p) => (PyItem.mk n k d s (some p)) :: ancList p

/-- The container items above a test, top-most (module) first, as they end
up nested in `get_test_module_tree`'s result. -/
def containersOf (t : PyItem) : List PyItem :=
  match t.parent with
  | none => []
  | some a => (ancList a).reverse

/-- The deterministic name path of a leaf: container names from the module
down, then the leaf's name. -/
def itemPath (t : PyItem) : List String :=
  (containersOf t).map PyItem.name ++ [t.name]

/-- Build the single-path hierarchy with the given containers (top-most
first) above a given tip node. -/
def graft : List PyItem → Hier → Hier
  | [], h => h
  | a :: l, h => Hier.mk a.name a (some [graft l h])

/-- The leaf dict `{"name": test.name, "obj": test}` of
`get_test_module_tree`. -/
def leafH (t : PyItem) : Hier := Hier.mk t.name t none

/- ===== Analysis: node sets of hierarchy forests ===== -/

mutual
/-- All nodes of a hierarchy tree as (path from this node's name, object,
is-leaf) triples, where is-leaf means the node has no children dict. -/
def nodeInfos : Hier → List (List String × PyItem × Bool)
  | .mk n o none => [([n], o, true)]
  | .mk n o (some cs) =>
    ([n], o, false) :: (nodeInfosList cs).map (fun e => (n :: e.1, e.2))

/-- Node triples of a list of sibling trees. -/
def nodeInfosList : List Hier → List (List String × PyItem × Bool)
  | [] => []
  | c :: rest => nodeInfos c ++ nodeInfosList rest
end

/-- Node triples contributed by one leaf's single-path hierarchy with the
given containers: each container at its path prefix, the leaf at the full
path. -/
def chainInfos : List PyItem → PyItem → List (List String × PyItem × Bool)
  | [], t => [([t.name], t, true)]
  | a :: l, t => ([a.name], a, false) :: (chainInfos l t).map (fun e => (a.name :: e.1, e.2))

/-- Node triples contributed by one discovered leaf item. -/
def chainEntries (t : PyItem) : List (List String × PyItem × Bool) :=
  chainInfos (containersOf t) t

/- ===== Analysis: well-formedness of hierarchy forests ===== -/

/-- No tree in the list is named `n`. -/
def nameFresh (n : String) : List Hier → Bool
  | [] => true
  | c :: rest => (c.name != n) && nameFresh n rest

/-- Sibling names are pairwise distinct. -/
def nodupNames : List Hier → Bool
  | [] => true
  | c :: rest => nameFresh c.name rest && nodupNames rest

mutual
/-- Structural well-formedness: node name equals its object's name, and
every children dict is nonempty with pairwise distinct names of
well-formed subtrees. -/
def wfH : Hier → Bool
  | .mk n o none => n == o.name
  | .mk n o (some cs) => (n == o.name) && !cs.isEmpty && nodupNames cs && wfList cs

/-- Well-formedness of a forest (also used for the root `modules` dict). -/
def wfList : List Hier → Bool
  | [] => true
  | c :: rest => wfH c && wfList rest
end

/- ===== Analysis: output trees ===== -/

mutual
/-- All Function-typed nodes of an output tree, as
(title path, doc, src) triples. -/
def funcNodes : TreeData → List (List String × Option (List Char) × Option (List Char))
  | .mk ty ti dc sr none => if ty == "Function" then [([ti], dc, sr)] else []
  | .mk ty ti dc sr (some cks) =>
    (if ty == "Function" then [([ti], dc, sr)] else []) ++
      (funcNodesList cks).map (fun e => (ti :: e.1, e.2))

/-- Function-typed nodes of a list of output trees. -/
def funcNodesList : List TreeData → List (List String × Option (List Char) × Option (List Char))
  | [] => []
  | d :: rest => funcNodes d ++ funcNodesList rest
end

/-- No output tree in the list has the given title. -/
def titleFresh (n : String) : List TreeData → Bool
  | [] => true
  | d :: rest => (d.title != n) && titleFresh n rest

/-- Sibling titles are pairwise distinct. -/
def nodupTitles : List TreeData → Bool
  | [] => true
  | d :: rest => titleFresh d.title rest && nodupTitles rest

mutual
/-- Every children list in an output tree has pairwise distinct titles. -/
def sibNodup : TreeData → Bool
  | .mk _ _ _ _ none => true
  | .mk _ _ _ _ (some cks) => nodupTitles cks && sibNodupList cks

/-- Sibling-title distinctness for a list of output trees, including at the
top level of the list itself. -/
def sibNodupList : List TreeData → Bool
  | [] => true
  | d :: rest => sibNodup d && sibNodupList rest
end

/-- Sibling-title distinctness across a whole output forest, the top-level
list included. -/
def forestSibNodup (ds : List TreeData) : Bool :=
  nodupTitles ds && sibNodupList ds

/-- Leaf (is-leaf flagged) node triples of one hierarchy tree. -/
def leafInfos (h : Hier) : List (List String × PyItem × Bool) :=
  (nodeInfos h).filter (fun e => e.2.2)

/-- Leaf (is-leaf flagged) node triples of a hierarchy forest. -/
def leafInfosList (F : List Hier) : List (List String × PyItem × Bool) :=
  (nodeInfosList F).filter (fun e => e.2.2)

/-- The output data a leaf node triple turns into: the path, the reindented
docstring and the reindented source of the leaf item. -/
def leafOut (e : List String × PyItem × Bool) :
    List String × Option (List Char) × Option (List Char) :=
  (e.1, reindentOpt e.2.1.doc, some (reindent e.2.1.src))

/-- Invariant carried by the `modules` dict while `pytest_collection_finish`
processes the items in `done`: structural well-formedness, soundness (every
node comes from some processed item's chain), exact completeness for leaves
and name-level completeness for containers. -/
def ForestInv (done : List PyItem) (F : List Hier) : Prop :=
  wfList F = true ∧ nodupNames F = true ∧
  (∀ x, x ∈ nodeInfosList F → ∃ t ∈ done, x ∈ chainEntries t) ∧
  (∀ t ∈ done, (itemPath t, t, true) ∈ nodeInfosList F) ∧
  (∀ t ∈ done, ∀ p o, (p, o, false) ∈ chainEntries t →
    ∃ o2, (p, o2, false) ∈ nodeInfosList F)

mutual
/-- The `src`/`children` partition invariant of output nodes: a node without
a children list is Function-typed and carries source text, a node with one
is not Function-typed and carries no source text. -/
def srcChildrenInv : TreeData → Bool
  | .mk ty _ _ sr none => (ty == "Function") && sr.isSome
  | .mk ty _ _ sr (some cks) => !(ty == "Function") && !sr.isSome && srcChildrenInvList cks

/-- The partition invariant for a list of output trees. -/
def srcChildrenInvList : List TreeData → Bool
  | [] => true
  | d :: rest => srcChildrenInv d && srcChildrenInvList rest
end

/- ===== Concrete fixtures used by witnesses and counterexamples ===== -/

/-- A session root item (parent `None`). -/
def sessI : PyItem := PyItem.mk "sess" "Session" none [] none

/-- A module item under the session root. -/
def modI : PyItem := PyItem.mk "m.py" "Module" (some "  module doc".toList) [] (some sessI)

/-- A test class item inside `modI`. -/
def clsI : PyItem := PyItem.mk "TestC" "Class" none [] (some modI)

/-- A first leaf test inside `clsI`. -/
def tA : PyItem :=
  PyItem.mk "test_one" "Function" (some "\n    doc a\n".toList) "  def test_one(): pass".toList
    (some clsI)

/-- A second leaf test inside `clsI`. -/
def tB : PyItem :=
  PyItem.mk "test_two" "Function" none "def test_two(): pass".toList (some clsI)

/-- A module named `m` under the session root. -/
def mA : PyItem := PyItem.mk "m" "Module" none [] (some sessI)

/-- A leaf test named `A` directly inside module `mA`. -/
def leafA : PyItem := PyItem.mk "A" "Function" none [] (some mA)

/-- A class named `A` inside module `mA` (same name as `leafA`). -/
def clsA : PyItem := PyItem.mk "A" "Class" none [] (some mA)

/-- A leaf test inside the class `clsA`. -/
def tF : PyItem := PyItem.mk "f" "Function" none [] (some clsA)

/-- A leaf test whose immediate parent is the session root, named like the
module `mA`. -/
def bare : PyItem := PyItem.mk "m" "Function" none [] (some sessI)

/-- A leaf test directly inside module `mA`. -/
def tG : PyItem := PyItem.mk "g" "Function" none [] (some mA)

/- ===== Theorems ===== -/

/-- C2: `collect` returns the plugin's annotated module trees exactly when
the framework exit status is the success status, and for every other status
it raises an error carrying that status code and returns nothing: it raises
if and only if the status is not success. -/
theorem collect_ok_iff (ret : Nat) (ms : Option (List TreeData)) :
    (collect ret ms = Except.error ret ↔ ret ≠ exitCodeOK) ∧
    (ret = exitCodeOK → collect ret ms = Except.ok ms) := by
  constructor
  · constructor
    · intro h heq
      subst heq
      simp [collect] at h
    · intro h
      simp [collect, bne_iff_ne, h]
  · intro h
    simp [collect, h]

/-- Witness for C2 at concrete statuses: a failing run with status 2 raises
carrying 2, a successful run returns the collected modules. -/
theorem collect_ok_iff_witness :
    collect 2 (some []) = Except.error 2 ∧ collect 0 (some []) = Except.ok (some []) :=
  ⟨(collect_ok_iff 2 (some [])).1.mpr (by decide),
   (collect_ok_iff 0 (some [])).2 rfl⟩

/-- C7: reindent on the concrete example: a newline, `def f():` indented
four spaces, `return 1` indented eight spaces and a trailing newline yields
exactly the dedented two-line string with no trailing newline. -/
theorem reindent_concrete_example :
    reindent "\n    def f():\n        return 1\n".toList = "def f():\n    return 1".toList := by
  decide

/-- Counterexample to C6: the input has two lines `  x` and `\t y`; the tab
of the second line lies inside the first two characters, and the per-line
strip removes it: the corresponding output line is `y`, which contains no
tab. -/
theorem reindent_removes_tab_counterexample :
    pySplitlines (pyStripNewlines "  x\n\t y".toList) = ["  x".toList, "\t y".toList] ∧
    '\t' ∈ "\t y".toList ∧
    reindent "  x\n\t y".toList = "x\ny".toList ∧
    pySplitlines (reindent "  x\n\t y".toList) = ["x".toList, "y".toList] ∧
    '\t' ∉ "y".toList := by
  decide

/-- C6 amended: the per-line operation of reindent keeps every character at
position `leading_spaces` or beyond — so a tab there is always preserved —
but a tab inside the leading whitespace of the first `leading_spaces`
characters is removed: a tab survives exactly when it survives the
whitespace strip of that prefix or sits at position `leading_spaces` or
later. -/
theorem fixLine_tab_membership (k : Nat) (l : List Char) :
    ('\t' ∈ fixLine k l ↔ ('\t' ∈ (l.take k).dropWhile pyIsSpace ∨ '\t' ∈ l.drop k)) ∧
    ('\t' ∈ l.drop k → '\t' ∈ fixLine k l) := by
  constructor
  · simp [fixLine]
  · intro h
    simp [fixLine, h]

/-- Witness for the amended C6: in line `\t y` with two significant leading
characters, the space-suffix `y` is kept, and a tab at position two or
later is kept. -/
theorem fixLine_tab_membership_witness :
    ('\t' ∈ fixLine 2 " \t\ty".toList) ∧ ¬ ('\t' ∈ fixLine 2 "\t y".toList) :=
  ⟨(fixLine_tab_membership 2 " \t\ty".toList).2 (by decide),
   fun h => by
     have := (fixLine_tab_membership 2 "\t y".toList).1.mp h
     revert this
     decide⟩

/-- Counterexample to C9: a leaf whose underlying object has no docstring
(`__doc__ = None`): `reindent(None)` returns `None` because `None` is
falsy, so the annotated node's `doc` field is `None`, not the empty
string. -/
theorem doc_none_not_empty_counterexample :
    tB.doc = none ∧
    Option.map TreeData.doc (collectData (leafH tB)) = some none ∧
    (none : Option (List Char)) ≠ some [] := by
  refine ⟨rfl, rfl, by simp⟩

/-- C9 amended: an absent docstring is propagated unchanged as the absent
value (`None`) and never as an error: every successfully annotated node's
`doc` is `reindent` of the underlying docstring, which is `None` exactly
when the docstring is absent and the normalized string otherwise. -/
theorem collectData_doc_propagation (h : Hier) (d : TreeData)
    (hcd : collectData h = some d) :
    d.doc = reindentOpt h.obj.doc ∧ (h.obj.doc = none → d.doc = none) := by
  have hmain : d.doc = reindentOpt h.obj.doc := by
    cases h with
    | mk n o cs =>
      cases cs with
      | none =>
        rw [collectData] at hcd
        split at hcd
        · cases hcd
          rfl
        · cases hcd
      | some cs =>
        rw [collectData] at hcd
        split at hcd
        · cases hcd
          rfl
        · split at hcd
          · cases hcd
          · cases hcd
            rfl
  refine ⟨hmain, fun hnone => ?_⟩
  rw [hmain, hnone]
  rfl

/-- Witness for the amended C9: the annotated `doc` of a concrete leaf with
a docstring is the reindented docstring. -/
theorem collectData_doc_propagation_witness :
    TreeData.doc
        (TreeData.mk "Function" "test_one" (some "doc a".toList)
          (some "def test_one(): pass".toList) none)
      = reindentOpt (Hier.obj (leafH tA)).doc :=
  (collectData_doc_propagation (leafH tA) _ rfl).1

/-- Helper for C8: by induction on a size bound, simultaneously for trees
and child lists: every record `collect_data` produces satisfies the
src/children partition. -/
theorem srcChildrenAux (fuel : Nat) :
    (∀ (h : Hier) (d : TreeData), sizeOf h ≤ fuel → collectData h = some d →
      srcChildrenInv d = true) ∧
    (∀ (cs : List Hier) (ds : List TreeData), sizeOf cs ≤ fuel → collectDataList cs = some ds →
      srcChildrenInvList ds = true) := by
  induction fuel with
  | zero =>
    constructor
    · intro h d hsz
      cases h with
      | mk n o c => simp at hsz
    · intro cs ds hsz
      cases cs with
      | nil => simp at hsz
      | cons c rest => simp at hsz
  | succ fuel ih =>
    constructor
    · intro h d hsz hcd
      cases h with
      | mk n o c =>
        cases c with
        | none =>
          rw [collectData] at hcd
          split at hcd
          · cases hcd
            rename_i hk
            simp [srcChildrenInv, hk]
          · cases hcd
        | some cs =>
          rw [collectData] at hcd
          split at hcd
          · cases hcd
            rename_i hk
            simp [srcChildrenInv, hk]
          · rename_i hk
            cases hds : collectDataList cs with
            | none =>
              rw [hds] at hcd
              cases hcd
            | some ds1 =>
              rw [hds] at hcd
              simp at hcd
              subst hcd
              have hcs : sizeOf cs ≤ fuel := by
                simp at hsz
                omega
              simp at hk
              simp [srcChildrenInv, hk]
              exact ih.2 cs ds1 hcs hds
    · intro cs ds hsz hcd
      cases cs with
      | nil =>
        rw [collectDataList] at hcd
        cases hcd
        rfl
      | cons c rest =>
        rw [collectDataList] at hcd
        cases hd1 : collectData c with
        | none =>
          rw [hd1] at hcd
          simp at hcd
        | some d1 =>
          cases hds1 : collectDataList rest with
          | none =>
            rw [hd1, hds1] at hcd
            simp at hcd
          | some ds1 =>
            rw [hd1, hds1] at hcd
            simp at hcd
            subst hcd
            have h1 : sizeOf c ≤ fuel := by
              simp at hsz
              omega
            have h2 : sizeOf rest ≤ fuel := by
              simp at hsz
              omega
            simp [srcChildrenInvList]
            exact ⟨ih.1 c d1 h1 hd1, ih.2 rest ds1 h2 hds1⟩
/-- C8: in every output forest the annotation walk produces, every node has
the `src` field exactly when its type is Function and the `children` field
exactly when its type is not Function; no node carries both or neither. -/
theorem output_src_children_partition (items : List PyItem) (out : List TreeData)
    (hrun : pytestCollectionFinish items = some out) : srcChildrenInvList out = true := by
  rw [pytestCollectionFinish] at hrun
  split at hrun
  · cases hrun
  · exact (srcChildrenAux (sizeOf _)).2 _ _ le_rfl hrun

/-- Witness for C8: the partition invariant evaluated on the concrete output
of a full run with two tests in one class in one module. -/
theorem output_src_children_partition_witness :
    srcChildrenInvList
        [TreeData.mk "Module" "m.py" (some "module doc".toList) none
          (some [TreeData.mk "Class" "TestC" none none
            (some [TreeData.mk "Function" "test_one" (some "doc a".toList)
                (some "def test_one(): pass".toList) none,
              TreeData.mk "Function" "test_two" none
                (some "def test_two(): pass".toList) none])])]
      = true :=
  output_src_children_partition [tA, tB] _ rfl

/-- Dropping while a predicate holds is dropping the length of the
satisfied prefix. -/
theorem dropWhile_eq_drop_len (p : Char → Bool) (l : List Char) :
    l.dropWhile p = l.drop (l.takeWhile p).length := by
  calc l.dropWhile p
      = (l.takeWhile p ++ l.dropWhile p).drop (l.takeWhile p).length :=
        (List.drop_left _ _).symm
    _ = l.drop (l.takeWhile p).length := by rw [List.takeWhile_append_dropWhile]

/-- Reassembling a line after dropping part of its clipped prefix. -/
theorem take_drop_append (l : List Char) (j k : Nat) (hjk : j ≤ k) :
    (l.take k).drop j ++ l.drop k = l.drop j := by
  rw [List.drop_take k j l]
  have hd : l.drop k = (l.drop j).drop (k - j) := by
    rw [List.drop_drop]
    congr 1
    omega
  rw [hd, List.take_append_drop]

/-- C5: for every non-empty input, reindent is exactly the per-line map of
`fixLine leading_spaces` over the newline-trimmed input's lines, and on
each line `fixLine` removes exactly some leading run of `j ≤ leading_spaces`
whitespace characters and keeps the remainder of the line — in particular
every character at position `leading_spaces` or beyond — unchanged, so a
line indented deeper than the first keeps its extra indentation. -/
theorem reindent_per_line (s : List Char) (hs : s ≠ []) :
    reindent s =
      joinNL ((pySplitlines (pyStripNewlines s)).map
        (fixLine (leadingSpacesOf (pyStripNewlines s)))) ∧
    ∀ l ∈ pySplitlines (pyStripNewlines s),
      ∃ j, j ≤ leadingSpacesOf (pyStripNewlines s) ∧
        fixLine (leadingSpacesOf (pyStripNewlines s)) l = l.drop j ∧
        ∀ c ∈ l.take j, pyIsSpace c = true := by
  constructor
  · rw [reindent, if_neg hs]
  · intro l _
    set k := leadingSpacesOf (pyStripNewlines s) with hk
    refine ⟨((l.take k).takeWhile pyIsSpace).length, ?_, ?_, ?_⟩
    · exact le_trans (List.takeWhile_prefix pyIsSpace).length_le (by
        simp)
    · rw [fixLine, dropWhile_eq_drop_len, List.drop_take k _ l]
      have hj : ((l.take k).takeWhile pyIsSpace).length ≤ k :=
        le_trans (List.takeWhile_prefix pyIsSpace).length_le (by
          simp)
      have hd : l.drop k = (l.drop ((l.take k).takeWhile pyIsSpace).length).drop
          (k - ((l.take k).takeWhile pyIsSpace).length) := by
        rw [List.drop_drop]
        congr 1
        omega
      rw [hd, List.take_append_drop]
    · intro c hc
      have hpre : (l.take k).takeWhile pyIsSpace <+: l :=
        (List.takeWhile_prefix pyIsSpace).trans (List.take_prefix k l)
      have h1 : l.take ((l.take k).takeWhile pyIsSpace).length
          = (l.take k).takeWhile pyIsSpace := (List.prefix_iff_eq_take.mp hpre).symm
      rw [h1] at hc
      exact List.mem_takeWhile_imp hc

/-- Witness for C5 at a concrete docstring with a deeper-indented second
line: the theorem's per-line description evaluated at that input. -/
theorem reindent_per_line_witness :
    reindent "  a\n      b".toList =
      joinNL ((pySplitlines (pyStripNewlines "  a\n      b".toList)).map
        (fixLine (leadingSpacesOf (pyStripNewlines "  a\n      b".toList)))) :=
  (reindent_per_line "  a\n      b".toList (by decide)).1


/-- A non-boundary character is accumulated into the current line. -/
theorem splitlinesAux_cons_nb (c : Char) (rest acc : List Char)
    (hc : isLineBoundary c = false) :
    splitlinesAux (c :: rest) acc = splitlinesAux rest (c :: acc) := by
  rw [splitlinesAux.eq_def]
  simp only []
  rw [if_neg (by simp [hc])]

/-- A boundary character ends the current line, which is emitted. -/
theorem splitlinesAux_boundary (b : Char) (rest acc : List Char)
    (hb : isLineBoundary b = true) :
    ∃ out, splitlinesAux (b :: rest) acc = acc.reverse :: out := by
  rw [splitlinesAux.eq_def]
  simp only []
  rw [if_pos hb]
  cases rest with
  | nil => exact ⟨[], rfl⟩
  | cons r1 rest2 =>
    simp only []
    by_cases hrn : b = '\r' ∧ r1 = '\n'
    · rw [if_pos hrn]
      exact ⟨_, rfl⟩
    · rw [if_neg hrn]
      exact ⟨_, rfl⟩

/-- Splitting at a newline character. -/
theorem splitlinesAux_newline (rest acc : List Char) :
    splitlinesAux ('\n' :: rest) acc
      = acc.reverse :: (if rest.isEmpty then [] else splitlinesAux rest []) := by
  cases rest <;> rfl

/-- A boundary-free prefix is wholly accumulated into the current line. -/
theorem splitlinesAux_nb_front :
    ∀ (l : List Char), (∀ c ∈ l, isLineBoundary c = false) →
      ∀ (rest acc : List Char),
        splitlinesAux (l ++ rest) acc = splitlinesAux rest (l.reverse ++ acc) := by
  intro l
  induction l with
  | nil =>
    intro _ rest acc
    simp
  | cons c t ih =>
    intro hl rest acc
    have hc : isLineBoundary c = false := hl c (by simp)
    rw [List.cons_append, splitlinesAux_cons_nb c _ _ hc,
      ih (fun x hx => hl x (by simp [hx])) rest (c :: acc)]
    congr 1
    simp

/-- A boundary-free string is a single line. -/
theorem splitlinesAux_nb_single (l acc : List Char)
    (hl : ∀ c ∈ l, isLineBoundary c = false) :
    splitlinesAux l acc = [acc.reverse ++ l] := by
  have h := splitlinesAux_nb_front l hl [] acc
  rw [List.append_nil] at h
  rw [h, splitlinesAux]
  simp

/-- The head of a dropWhile result falsifies the predicate. -/
theorem dropWhile_head_false (p : Char → Bool) :
    ∀ (l : List Char) (c : Char) (t : List Char), l.dropWhile p = c :: t → p c = false := by
  intro l
  induction l with
  | nil =>
    intro c t h
    cases h
  | cons a l ih =>
    intro c t h
    rw [List.dropWhile_cons] at h
    split at h
    · exact ih c t h
    · rename_i ha
      cases h
      simpa using ha

/-- Every line `splitlinesAux` emits is boundary-free, given a boundary-free
current accumulator. -/
theorem splitlines_lines_nb :
    ∀ (n : Nat) (s acc : List Char), s.length ≤ n →
      (∀ c ∈ acc, isLineBoundary c = false) →
      ∀ l ∈ splitlinesAux s acc, ∀ c ∈ l, isLineBoundary c = false := by
  intro n
  induction n with
  | zero =>
    intro s acc hlen hacc l hl c hcl
    have hs : s = [] := List.length_eq_zero.mp (Nat.le_zero.mp hlen)
    subst hs
    rw [splitlinesAux] at hl
    simp at hl
    subst hl
    exact hacc c (by simpa using hcl)
  | succ n ih =>
    intro s acc hlen hacc l hl c hcl
    cases s with
    | nil =>
      rw [splitlinesAux] at hl
      simp at hl
      subst hl
      exact hacc c (by simpa using hcl)
    | cons a rest =>
      by_cases hba : isLineBoundary a = true
      · rw [splitlinesAux.eq_def] at hl
        simp only [] at hl
        rw [if_pos hba] at hl
        cases rest with
        | nil =>
          simp only [] at hl
          simp at hl
          subst hl
          exact hacc c (by simpa using hcl)
        | cons r1 rest2 =>
          simp only [] at hl
          by_cases hrn : a = '\r' ∧ r1 = '\n'
          · rw [if_pos hrn] at hl
            rw [List.mem_cons] at hl
            rcases hl with hl | hl
            · subst hl
              exact hacc c (by simpa using hcl)
            · split at hl
              · cases hl
              · refine ih rest2 [] (by simp at hlen; omega) (by simp) l hl c hcl
          · rw [if_neg hrn] at hl
            rw [List.mem_cons] at hl
            rcases hl with hl | hl
            · subst hl
              exact hacc c (by simpa using hcl)
            · refine ih (r1 :: rest2) [] (by simp at hlen ⊢; omega) (by simp) l hl c hcl
      · rw [splitlinesAux_cons_nb a rest acc (by simpa using hba)] at hl
        refine ih rest (a :: acc) (by simp at hlen; omega) ?_ l hl c hcl
        intro x hx
        rw [List.mem_cons] at hx
        rcases hx with hx | hx
        · subst hx
          simpa using hba
        · exact hacc x hx

/-- The first line of a non-empty string is its longest boundary-free
prefix. -/
theorem pySplitlines_head (s : List Char) (hs : s ≠ []) :
    ∃ rest, pySplitlines s = (s.takeWhile (fun c => !isLineBoundary c)) :: rest := by
  have hsplit := (List.takeWhile_append_dropWhile
    (p := fun c => !isLineBoundary c) (l := s)).symm
  rw [pySplitlines, if_neg (by simpa using hs)]
  rw [show splitlinesAux s [] = splitlinesAux (s.takeWhile (fun c => !isLineBoundary c) ++
    s.dropWhile (fun c => !isLineBoundary c)) [] from by rw [← hsplit]]
  rw [splitlinesAux_nb_front _ (fun c hc => by
    simpa using List.mem_takeWhile_imp hc) _ []]
  cases hd : s.dropWhile (fun c => !isLineBoundary c) with
  | nil =>
    rw [splitlinesAux]
    exact ⟨[], by simp⟩
  | cons b rest2 =>
    have hb : isLineBoundary b = true := by
      have := dropWhile_head_false (fun c => !isLineBoundary c) s b rest2 hd
      simpa using this
    obtain ⟨out, hout⟩ := splitlinesAux_boundary b rest2 _ hb
    rw [hout]
    exact ⟨out, by simp⟩

/-- Joining a two-or-more line list starts with the first line and a
newline. -/
theorem joinNL_cons_ne (l : List Char) (rest : List (List Char)) (hr : rest ≠ []) :
    joinNL (l :: rest) = l ++ '\n' :: joinNL rest := by
  cases rest with
  | nil => exact absurd rfl hr
  | cons a b => rfl

/-- An empty join forces a single empty line. -/
theorem joinNL_eq_nil (x : List Char) (xs : List (List Char))
    (h : joinNL (x :: xs) = []) : x = [] ∧ xs = [] := by
  cases xs with
  | nil => exact ⟨h, rfl⟩
  | cons a b =>
    rw [joinNL_cons_ne x _ (by simp)] at h
    simp at h

/-- A join whose last line is empty ends in a newline. -/
theorem joinNL_last_empty :
    ∀ (ls : List (List Char)) (a : List Char), (a :: ls).getLast? = some [] → ls ≠ [] →
      ∃ y, joinNL (a :: ls) = y ++ ['\n'] := by
  intro ls
  induction ls with
  | nil =>
    intro a _ hne
    exact absurd rfl hne
  | cons b rest ih =>
    intro a hlast _
    cases rest with
    | nil =>
      simp at hlast
      subst hlast
      exact ⟨a, rfl⟩
    | cons b2 rest2 =>
      obtain ⟨y, hy⟩ := ih b (by simpa using hlast) (by simp)
      refine ⟨a ++ '\n' :: y, ?_⟩
      rw [joinNL_cons_ne a _ (by simp), hy]
      simp

/-- Stripping newlines around a string that starts with one shortens it. -/
theorem stripNL_cons_newline (x : List Char) : pyStripNewlines ('\n' :: x) ≠ '\n' :: x := by
  intro h
  have h1 : (pyStripNewlines ('\n' :: x)).length ≤
      (('\n' :: x).dropWhile (fun c => c == '\n')).length := by
    rw [pyStripNewlines]
    calc ((('\n' :: x).dropWhile (fun c => c == '\n')).reverse.dropWhile
            (fun c => c == '\n')).reverse.length
        = ((('\n' :: x).dropWhile (fun c => c == '\n')).reverse.dropWhile
            (fun c => c == '\n')).length := by rw [List.length_reverse]
      _ ≤ (('\n' :: x).dropWhile (fun c => c == '\n')).reverse.length :=
          (List.dropWhile_suffix _).length_le
      _ = _ := List.length_reverse _
  rw [List.dropWhile_cons_of_pos (by simp)] at h1
  have h2 : (x.dropWhile (fun c => c == '\n')).length ≤ x.length :=
    (List.dropWhile_suffix _).length_le
  rw [h] at h1
  simp at h1
  omega

/-- Stripping newlines around a string that ends with one shortens it. -/
theorem stripNL_snoc_newline (y : List Char) :
    pyStripNewlines (y ++ ['\n']) ≠ y ++ ['\n'] := by
  intro h
  set z := (y ++ ['\n']).dropWhile (fun c => c == '\n') with hz
  have hlenz : z.length ≤ y.length + 1 := by
    have := (List.dropWhile_suffix (l := y ++ ['\n']) (fun c => c == '\n')).length_le
    simpa using this
  have hzdrop : z = (y ++ ['\n']).drop ((y ++ ['\n']).takeWhile (fun c => c == '\n')).length :=
    dropWhile_eq_drop_len _ _
  have hcases : z = [] ∨ ∃ w, z = w ++ ['\n'] := by
    rw [hzdrop]
    set n := ((y ++ ['\n']).takeWhile (fun c => c == '\n')).length with hn
    by_cases hny : n ≤ y.length
    · right
      refine ⟨y.drop n, ?_⟩
      rw [List.drop_append_eq_append_drop]
      have : n - y.length = 0 := by omega
      rw [this]
      simp
    · left
      rw [List.drop_append_eq_append_drop]
      have h1 : y.drop n = [] := List.drop_eq_nil_of_le (by omega)
      have h2 : n - y.length ≥ 1 := by omega
      rw [h1]
      simp
      omega
  have hfinal : (pyStripNewlines (y ++ ['\n'])).length < (y ++ ['\n']).length := by
    rcases hcases with hcz | ⟨w, hw⟩
    · rw [pyStripNewlines, ← hz, hcz]
      simp
    · rw [pyStripNewlines, ← hz, hw]
      have hwlen : w.length + 1 ≤ y.length + 1 := by
        rw [hw] at hlenz
        simpa using hlenz
      calc ((w ++ ['\n']).reverse.dropWhile (fun c => c == '\n')).reverse.length
          = ((w ++ ['\n']).reverse.dropWhile (fun c => c == '\n')).length :=
            List.length_reverse _
        _ = (('\n' :: w.reverse).dropWhile (fun c => c == '\n')).length := by simp
        _ = (w.reverse.dropWhile (fun c => c == '\n')).length := by
            rw [List.dropWhile_cons_of_pos (by simp)]
        _ ≤ w.reverse.length := (List.dropWhile_suffix _).length_le
        _ = w.length := List.length_reverse _
        _ < (y ++ ['\n']).length := by
            simp
            omega
  rw [h] at hfinal
  omega

/-- The computed leading-space count is the length of the leading space
run. -/
theorem leadingSpacesOf_eq_takeWhile (s : List Char) :
    leadingSpacesOf s = (s.takeWhile (fun c => c == ' ')).length := by
  rw [leadingSpacesOf]
  have h := List.takeWhile_append_dropWhile (p := fun c => c == ' ') (l := s)
  have hlen : (s.takeWhile (fun c => c == ' ')).length +
      (s.dropWhile (fun c => c == ' ')).length = s.length := by
    rw [← List.length_append, h]
  omega

/-- A string starting with a non-space character has no leading spaces. -/
theorem leadingSpacesOf_cons_ne_space (c : Char) (t : List Char)
    (hc : (c == ' ') = false) : leadingSpacesOf (c :: t) = 0 := by
  rw [leadingSpacesOf_eq_takeWhile, List.takeWhile_cons_of_neg (by simp [hc])]
  rfl

/-- Characters of a fixed line come from the original line. -/
theorem mem_of_mem_fixLine (k : Nat) (l : List Char) (c : Char)
    (hc : c ∈ fixLine k l) : c ∈ l := by
  rw [fixLine] at hc
  rcases List.mem_append.mp hc with h | h
  · exact (List.take_prefix k l).subset ((List.dropWhile_suffix pyIsSpace).subset h)
  · exact (List.drop_suffix k l).subset h

/-- The per-line operation at zero leading spaces is the identity. -/
theorem fixLine_zero (l : List Char) : fixLine 0 l = l := rfl

/-- Restricting a takeWhile by a weaker predicate changes nothing. -/
theorem takeWhile_imp_eq (p q : Char → Bool) (himp : ∀ c, p c = true → q c = true) :
    ∀ (l : List Char), l.takeWhile (fun c => p c && q c) = l.takeWhile p := by
  intro l
  induction l with
  | nil => rfl
  | cons a t ih =>
    by_cases hp : p a = true
    · rw [List.takeWhile_cons_of_pos (by simp [hp, himp a hp]),
        List.takeWhile_cons_of_pos hp, ih]
    · rw [List.takeWhile_cons_of_neg (by simp [hp]),
        List.takeWhile_cons_of_neg (by simpa using hp)]

/-- Round trip: splitting a newline-join of boundary-free lines whose last
line is nonempty recovers the lines. -/
theorem split_join :
    ∀ (lines : List (List Char)), lines ≠ [] →
      (∀ l ∈ lines, ∀ c ∈ l, isLineBoundary c = false) →
      lines.getLast? ≠ some [] →
      pySplitlines (joinNL lines) = lines := by
  intro lines
  induction lines with
  | nil => intro h; exact absurd rfl h
  | cons l rest ih =>
    intro _ hbf hlast
    cases rest with
    | nil =>
      have hl : l ≠ [] := by
        intro hcon
        rw [hcon] at hlast
        simp at hlast
      rw [show joinNL [l] = l from rfl, pySplitlines, if_neg (by simpa using hl),
        splitlinesAux_nb_single l [] (hbf l (by simp))]
      simp
    | cons l2 rest2 =>
      have hJne : joinNL (l2 :: rest2) ≠ [] := by
        intro hcon
        obtain ⟨h1, h2⟩ := joinNL_eq_nil l2 rest2 hcon
        subst h2
        rw [h1] at hlast
        simp at hlast
      rw [joinNL_cons_ne l _ (by simp), pySplitlines, if_neg (by simp)]
      rw [splitlinesAux_nb_front l (hbf l (by simp)) _ []]
      rw [splitlinesAux_newline]
      rw [if_neg (by simpa using hJne)]
      have hrec : splitlinesAux (joinNL (l2 :: rest2)) [] = pySplitlines (joinNL (l2 :: rest2)) := by
        rw [pySplitlines, if_neg (by simpa using hJne)]
      rw [hrec, ih (by simp) (fun x hx => hbf x (by simp [hx])) (by simpa using hlast)]
      simp

/-- Counterexample to C3: for the input with an all-space first line
`"  \nx"`, one application gives `"\nx"` (first line emptied), and the
second application strips the now-leading newline, giving `"x"`: reindent
is not idempotent on every input. -/
theorem reindent_not_idempotent_counterexample :
    reindent "  \nx".toList = "\nx".toList ∧
    reindent (reindent "  \nx".toList) ≠ reindent "  \nx".toList := by
  decide

/-- C3 amended: reindent is idempotent on every input whose reindent output
carries no leading or trailing newline (equivalently, whose first and last
lines do not become empty); in general a second application can differ,
because the output of the first can start or end with a newline that the
second strips. -/
theorem reindent_idempotent_on_stable (s : List Char)
    (hstable : pyStripNewlines (reindent s) = reindent s) :
    reindent (reindent s) = reindent s := by
  by_cases hs : s = []
  · subst hs
    rfl
  by_cases hrnil : reindent s = []
  · rw [hrnil]
    rfl
  have hr : reindent s =
      joinNL ((pySplitlines (pyStripNewlines s)).map
        (fixLine (leadingSpacesOf (pyStripNewlines s)))) := by
    rw [reindent, if_neg hs]
  cases hlines : pySplitlines (pyStripNewlines s) with
  | nil =>
    rw [hlines] at hr
    exact absurd hr hrnil
  | cons line0 lrest =>
    have hs1ne : pyStripNewlines s ≠ [] := by
      intro hcon
      rw [hcon] at hlines
      rw [pySplitlines] at hlines
      simp at hlines
    obtain ⟨rest0, hrest0⟩ := pySplitlines_head (pyStripNewlines s) hs1ne
    rw [hlines, List.cons.injEq] at hrest0
    have hline0 : line0 = (pyStripNewlines s).takeWhile (fun c => !isLineBoundary c) :=
      hrest0.1
    have hkline : line0.takeWhile (fun c => c == ' ')
        = (pyStripNewlines s).takeWhile (fun c => c == ' ') := by
      rw [hline0, List.takeWhile_takeWhile]
      have hpred : (fun a => decide ((a == ' ') = true ∧ (!isLineBoundary a) = true))
          = fun c => (c == ' ') && !isLineBoundary c := by
        funext a
        by_cases ha : a == ' ' <;> by_cases hb : isLineBoundary a <;> simp [ha, hb]
      rw [hpred]
      exact takeWhile_imp_eq (fun c => c == ' ') (fun c => !isLineBoundary c)
        (fun c hc => by
          have hcs : c = ' ' := by simpa using hc
          subst hcs
          rfl) _
    have hkeq : leadingSpacesOf (pyStripNewlines s)
        = (line0.takeWhile (fun c => c == ' ')).length := by
      rw [leadingSpacesOf_eq_takeWhile, hkline]
    have hf0drop : fixLine (leadingSpacesOf (pyStripNewlines s)) line0
        = line0.dropWhile (fun c => c == ' ') := by
      rw [fixLine]
      have htake : line0.take (leadingSpacesOf (pyStripNewlines s))
          = line0.takeWhile (fun c => c == ' ') := by
        rw [hkeq]
        exact (List.prefix_iff_eq_take.mp (List.takeWhile_prefix _)).symm
      rw [htake]
      have hdropall : (line0.takeWhile (fun c => c == ' ')).dropWhile pyIsSpace = [] := by
        rw [List.dropWhile_eq_nil_iff]
        intro x hx
        have hxsp : x = ' ' := by simpa using List.mem_takeWhile_imp hx
        subst hxsp
        rfl
      rw [hdropall, hkeq, ← dropWhile_eq_drop_len]
      simp
    have hrjoin : reindent s =
        joinNL (fixLine (leadingSpacesOf (pyStripNewlines s)) line0 ::
          lrest.map (fixLine (leadingSpacesOf (pyStripNewlines s)))) := by
      rw [hr, hlines, List.map_cons]
    by_cases hf0nil : fixLine (leadingSpacesOf (pyStripNewlines s)) line0 = []
    · cases hfr : lrest.map (fixLine (leadingSpacesOf (pyStripNewlines s))) with
      | nil =>
        rw [hfr, hf0nil] at hrjoin
        exact absurd hrjoin hrnil
      | cons ff frest2 =>
        rw [hfr, hf0nil, joinNL_cons_ne [] _ (by simp), List.nil_append] at hrjoin
        have hcon : pyStripNewlines (reindent s) ≠ reindent s := by
          rw [hrjoin]
          exact stripNL_cons_newline _
        exact absurd hstable hcon
    obtain ⟨c0, t0, hc0t⟩ : ∃ c0 t0,
        fixLine (leadingSpacesOf (pyStripNewlines s)) line0 = c0 :: t0 := by
      cases hf : fixLine (leadingSpacesOf (pyStripNewlines s)) line0 with
      | nil => exact absurd hf hf0nil
      | cons a b => exact ⟨a, b, rfl⟩
    have hc0 : (c0 == ' ') = false := by
      rw [hf0drop] at hc0t
      exact dropWhile_head_false _ line0 c0 t0 hc0t
    by_cases hlast : (fixLine (leadingSpacesOf (pyStripNewlines s)) line0 ::
        lrest.map (fixLine (leadingSpacesOf (pyStripNewlines s)))).getLast? = some []
    · cases hfr : lrest.map (fixLine (leadingSpacesOf (pyStripNewlines s))) with
      | nil =>
        rw [hfr] at hlast
        simp at hlast
        rw [hlast] at hc0t
        cases hc0t
      | cons ff frest2 =>
        rw [hfr] at hlast
        obtain ⟨y, hy⟩ := joinNL_last_empty (ff :: frest2) _ hlast (by simp)
        rw [hfr] at hrjoin
        have hcon : pyStripNewlines (reindent s) ≠ reindent s := by
          rw [hrjoin, hy]
          exact stripNL_snoc_newline y
        exact absurd hstable hcon
    have hbf : ∀ l ∈ (fixLine (leadingSpacesOf (pyStripNewlines s)) line0 ::
        lrest.map (fixLine (leadingSpacesOf (pyStripNewlines s)))),
        ∀ c ∈ l, isLineBoundary c = false := by
      intro l hl c hc
      have hmap : l ∈ (pySplitlines (pyStripNewlines s)).map
          (fixLine (leadingSpacesOf (pyStripNewlines s))) := by
        rw [hlines, List.map_cons]
        exact hl
      obtain ⟨l2, hl2mem, hl2⟩ := List.mem_map.mp hmap
      have hchar : c ∈ l2 := mem_of_mem_fixLine _ l2 c (hl2 ▸ hc)
      have hsl : l2 ∈ splitlinesAux (pyStripNewlines s) [] := by
        rw [pySplitlines, if_neg (by simpa using hs1ne)] at hl2mem
        exact hl2mem
      exact splitlines_lines_nb (pyStripNewlines s).length (pyStripNewlines s) []
        le_rfl (by simp) l2 hsl c hchar
    have hsplit_r : pySplitlines (reindent s) =
        fixLine (leadingSpacesOf (pyStripNewlines s)) line0 ::
          lrest.map (fixLine (leadingSpacesOf (pyStripNewlines s))) := by
      rw [hrjoin]
      exact split_join _ (by simp) hbf hlast
    have hrc0 : ∃ rr, reindent s = c0 :: rr := by
      rw [hrjoin, hc0t]
      cases hfr : lrest.map (fixLine (leadingSpacesOf (pyStripNewlines s))) with
      | nil => exact ⟨t0, rfl⟩
      | cons a b =>
        rw [joinNL_cons_ne _ _ (by simp)]
        exact ⟨t0 ++ '\n' :: joinNL (a :: b), by simp⟩
    obtain ⟨rr, hrr⟩ := hrc0
    calc reindent (reindent s)
        = joinNL ((pySplitlines (pyStripNewlines (reindent s))).map
            (fixLine (leadingSpacesOf (pyStripNewlines (reindent s))))) := by
          rw [reindent, if_neg hrnil]
      _ = joinNL ((pySplitlines (reindent s)).map
            (fixLine (leadingSpacesOf (reindent s)))) := by rw [hstable]
      _ = joinNL (((fixLine (leadingSpacesOf (pyStripNewlines s)) line0 ::
            lrest.map (fixLine (leadingSpacesOf (pyStripNewlines s))))).map
            (fixLine 0)) := by
          rw [hsplit_r, hrr, leadingSpacesOf_cons_ne_space c0 rr hc0]
      _ = joinNL (fixLine (leadingSpacesOf (pyStripNewlines s)) line0 ::
            lrest.map (fixLine (leadingSpacesOf (pyStripNewlines s)))) := by
          congr 1
          simp [fixLine_zero]
      _ = reindent s := hrjoin.symm

/-- Witness for the amended C3: a concrete docstring whose reindent output
has no boundary newlines is a fixed point of a second application. -/
theorem reindent_idempotent_on_stable_witness :
    reindent (reindent "  a\n    b\n  c".toList) = reindent "  a\n    b\n  c".toList :=
  reindent_idempotent_on_stable "  a\n    b\n  c".toList (by decide)

/-- Grafting distributes over list append. -/
theorem graft_append : ∀ (u v : List PyItem) (h : Hier),
    graft (u ++ v) h = graft u (graft v h) := by
  intro u
  induction u with
  | nil => intro v h; rfl
  | cons a l ih =>
    intro v h
    rw [List.cons_append, graft, graft, ih]

/-- The climb loop builds the grafted single-path chain of the wrapped
ancestors. -/
theorem climb_graft : ∀ (a : PyItem) (h : Hier), climb a h = graft (ancList a).reverse h
  | .mk n k d sr none, h => by
    rw [climb, ancList]
    rfl
  | .mk n k d sr (some p), h => by
    rw [climb, ancList, List.reverse_cons, graft_append,
      climb_graft p (Hier.mk n (PyItem.mk n k d sr (some p)) (some [h]))]
    rfl

/-- `get_test_module_tree` returns the grafted chain of the containers over
the leaf. -/
theorem getTestModuleTree_graft (t : PyItem) (p : PyItem) (hp : t.parent = some p) :
    getTestModuleTree t = some (graft (containersOf t) (leafH t)) := by
  rw [getTestModuleTree, hp, containersOf, hp]
  simp only []
  rw [climb_graft]
  rfl

/-- The node triples of a grafted chain are its chain triples. -/
theorem nodeInfos_graft : ∀ (L : List PyItem) (t : PyItem),
    nodeInfos (graft L (leafH t)) = chainInfos L t := by
  intro L
  induction L with
  | nil =>
    intro t
    rfl
  | cons a l ih =>
    intro t
    rw [graft, nodeInfos, chainInfos, ← ih t]
    rw [show nodeInfosList [graft l (leafH t)] = nodeInfos (graft l (leafH t)) ++ [] from rfl]
    rw [List.append_nil]

/-- A grafted chain is well-formed. -/
theorem wf_graft : ∀ (L : List PyItem) (t : PyItem), wfH (graft L (leafH t)) = true := by
  intro L
  induction L with
  | nil =>
    intro t
    simp [graft, leafH, wfH, Hier.name, Hier.obj, PyItem.name]
  | cons a l ih =>
    intro t
    simp [graft, wfH, nodupNames, nameFresh, wfList, ih t]

/-- The chain entries of an item are the node triples of its grafted
chain. -/
theorem chainEntries_eq_graft (t : PyItem) :
    chainEntries t = nodeInfos (graft (containersOf t) (leafH t)) := by
  rw [chainEntries, nodeInfos_graft]

/-- Node triples of an appended forest. -/
theorem nodeInfosList_append : ∀ (xs ys : List Hier),
    nodeInfosList (xs ++ ys) = nodeInfosList xs ++ nodeInfosList ys := by
  intro xs
  induction xs with
  | nil => intro ys; rfl
  | cons c rest ih =>
    intro ys
    rw [List.cons_append, nodeInfosList, nodeInfosList, ih, List.append_assoc]

/-- Membership in a forest's node triples. -/
theorem mem_nodeInfosList (x : List String × PyItem × Bool) :
    ∀ (cs : List Hier), x ∈ nodeInfosList cs ↔ ∃ c ∈ cs, x ∈ nodeInfos c := by
  intro cs
  induction cs with
  | nil => simp [nodeInfosList]
  | cons c rest ih =>
    rw [nodeInfosList, List.mem_append, ih]
    constructor
    · rintro (h | ⟨c2, hc2, hx⟩)
      · exact ⟨c, by simp, h⟩
      · exact ⟨c2, by simp [hc2], hx⟩
    · rintro ⟨c2, hc2, hx⟩
      rw [List.mem_cons] at hc2
      rcases hc2 with hc2 | hc2
      · subst hc2
        exact Or.inl hx
      · exact Or.inr ⟨c2, hc2, hx⟩

/-- Every node triple of a tree has the root's name as its path head. -/
theorem nodeInfos_head (h : Hier) (x : List String × PyItem × Bool)
    (hx : x ∈ nodeInfos h) : ∃ r, x.1 = h.name :: r := by
  cases h with
  | mk n o c =>
    cases c with
    | none =>
      rw [nodeInfos] at hx
      simp at hx
      subst hx
      exact ⟨[], rfl⟩
    | some cs =>
      rw [nodeInfos, List.mem_cons] at hx
      rcases hx with hx | hx
      · subst hx
        exact ⟨[], rfl⟩
      · obtain ⟨e, -, he⟩ := List.mem_map.mp hx
        exact ⟨e.1, by subst he; rfl⟩

/-- The root triple of a tree is among its node triples. -/
theorem nodeInfos_self (h : Hier) :
    ([h.name], h.obj, h.children.isNone) ∈ nodeInfos h := by
  cases h with
  | mk n o c =>
    cases c with
    | none => exact List.Mem.head _
    | some cs => exact List.Mem.head _

/-- Lifting a node triple of a child into the parent tree. -/
theorem nodeInfos_child (n : String) (o : PyItem) (cs : List Hier) (c : Hier)
    (hc : c ∈ cs) (x : List String × PyItem × Bool) (hx : x ∈ nodeInfos c) :
    (n :: x.1, x.2) ∈ nodeInfos (Hier.mk n o (some cs)) := by
  rw [nodeInfos, List.mem_cons]
  right
  rw [List.mem_map]
  refine ⟨x, ?_, rfl⟩
  rw [mem_nodeInfosList]
  exact ⟨c, hc, hx⟩

/-- A missing key means no member has that name. -/
theorem findByName_none_iff (cs : List Hier) (k : String) :
    findByName cs k = none ↔ ∀ c ∈ cs, c.name ≠ k := by
  rw [findByName, List.find?_eq_none]
  constructor
  · intro h c hc
    have := h c hc
    simpa using this
  · intro h c hc
    simpa using h c hc

/-- A found entry is a member with the looked-up name. -/
theorem findByName_some_mem (cs : List Hier) (k : String) (ex : Hier)
    (hf : findByName cs k = some ex) : ex ∈ cs ∧ ex.name = k := by
  rw [findByName] at hf
  refine ⟨List.mem_of_find?_eq_some hf, ?_⟩
  have := List.find?_some hf
  simpa using this

/-- A successful lookup splits the dict: the part before the hit has other
names, and an update replaces exactly the hit, in place. -/
theorem findByName_split :
    ∀ (cs : List Hier) (k : String) (ex : Hier), findByName cs k = some ex →
      ∃ cs1 cs2, cs = cs1 ++ ex :: cs2 ∧ (∀ c ∈ cs1, c.name ≠ k) ∧
        ∀ v, updateByName cs k v = cs1 ++ v :: cs2 := by
  intro cs
  induction cs with
  | nil =>
    intro k ex hf
    rw [findByName] at hf
    cases hf
  | cons c rest ih =>
    intro k ex hf
    rw [findByName, List.find?_cons] at hf
    cases hck : c.name == k with
    | true =>
      rw [hck] at hf
      simp only [] at hf
      cases hf
      refine ⟨[], rest, by simp, by simp, ?_⟩
      intro v
      rw [updateByName, if_pos hck]
      simp
    | false =>
      rw [hck] at hf
      simp only [] at hf
      obtain ⟨cs1, cs2, heq, hfr, hupd⟩ := ih k ex hf
      refine ⟨c :: cs1, cs2, by rw [heq]; simp, ?_, ?_⟩
      · intro x hx
        rw [List.mem_cons] at hx
        rcases hx with hx | hx
        · subst hx
          simpa using hck
        · exact hfr x hx
      · intro v
        rw [updateByName, if_neg (by simp [hck]), hupd v]
        simp

/-- Freshness of a name in a forest, elementwise. -/
theorem nameFresh_iff (n : String) : ∀ (cs : List Hier),
    nameFresh n cs = true ↔ ∀ c ∈ cs, c.name ≠ n := by
  intro cs
  induction cs with
  | nil => simp [nameFresh]
  | cons c rest ih =>
    rw [nameFresh, Bool.and_eq_true, ih]
    constructor
    · rintro ⟨h1, h2⟩ x hx
      rw [List.mem_cons] at hx
      rcases hx with hx | hx
      · subst hx
        simpa using h1
      · exact h2 x hx
    · intro h
      refine ⟨by simpa using h c (by simp), fun x hx => h x (by simp [hx])⟩

/-- Forest well-formedness, elementwise. -/
theorem wfList_iff (cs : List Hier) :
    wfList cs = true ↔ ∀ c ∈ cs, wfH c = true := by
  induction cs with
  | nil => simp [wfList]
  | cons c rest ih =>
    rw [wfList, Bool.and_eq_true, ih]
    constructor
    · rintro ⟨h1, h2⟩ x hx
      rw [List.mem_cons] at hx
      rcases hx with hx | hx
      · subst hx
        exact h1
      · exact h2 x hx
    · intro h
      exact ⟨h c (by simp), fun x hx => h x (by simp [hx])⟩

/-- Appending a fresh-named tree preserves name distinctness. -/
theorem nodupNames_append_fresh : ∀ (cs : List Hier) (v : Hier),
    nodupNames cs = true → (∀ c ∈ cs, c.name ≠ v.name) →
    nodupNames (cs ++ [v]) = true := by
  intro cs
  induction cs with
  | nil =>
    intro v _ _
    simp [nodupNames, nameFresh]
  | cons c rest ih =>
    intro v hnd hfr
    rw [nodupNames, Bool.and_eq_true] at hnd
    rw [List.cons_append, nodupNames, Bool.and_eq_true]
    refine ⟨?_, ih v hnd.2 (fun x hx => hfr x (by simp [hx]))⟩
    rw [nameFresh_iff]
    intro x hx
    rw [List.mem_append] at hx
    rcases hx with hx | hx
    · exact (nameFresh_iff c.name rest).mp hnd.1 x hx
    · rw [List.mem_singleton] at hx
      subst hx
      exact fun hcon => hfr c (by simp) hcon.symm

/-- Replacing a tree by one with the same name keeps name freshness. -/
theorem nameFresh_replace (n : String) : ∀ (cs1 cs2 : List Hier) (ex ex2 : Hier),
    ex2.name = ex.name →
    nameFresh n (cs1 ++ ex :: cs2) = nameFresh n (cs1 ++ ex2 :: cs2) := by
  intro cs1
  induction cs1 with
  | nil =>
    intro cs2 ex ex2 hname
    rw [List.nil_append, List.nil_append, nameFresh, nameFresh, hname]
  | cons c rest ih =>
    intro cs2 ex ex2 hname
    rw [List.cons_append, List.cons_append, nameFresh, nameFresh, ih cs2 ex ex2 hname]

/-- Replacing a tree by one with the same name keeps name distinctness. -/
theorem nodupNames_replace : ∀ (cs1 cs2 : List Hier) (ex ex2 : Hier),
    ex2.name = ex.name → nodupNames (cs1 ++ ex :: cs2) = true →
    nodupNames (cs1 ++ ex2 :: cs2) = true := by
  intro cs1
  induction cs1 with
  | nil =>
    intro cs2 ex ex2 hname hnd
    rw [List.nil_append, nodupNames, Bool.and_eq_true] at hnd ⊢
    exact ⟨by rw [hname]; exact hnd.1, hnd.2⟩
  | cons c rest ih =>
    intro cs2 ex ex2 hname hnd
    rw [List.cons_append, nodupNames, Bool.and_eq_true] at hnd ⊢
    refine ⟨?_, ih cs2 ex ex2 hname hnd.2⟩
    rw [← nameFresh_replace c.name rest cs2 ex ex2 hname]
    exact hnd.1

/-- The full-path leaf triple of a chain. -/
theorem chain_leaf_mem : ∀ (L : List PyItem) (t : PyItem),
    (L.map PyItem.name ++ [t.name], t, true) ∈ chainInfos L t := by
  intro L
  induction L with
  | nil =>
    intro t
    simp [chainInfos]
  | cons a l ih =>
    intro t
    rw [chainInfos, List.mem_cons]
    right
    rw [List.mem_map]
    exact ⟨(l.map PyItem.name ++ [t.name], t, true), ih t, by simp⟩

/-- A leaf-flagged chain triple is the full-path triple of the leaf. -/
theorem chain_mem_leaf : ∀ (L : List PyItem) (t : PyItem) (p : List String) (o : PyItem),
    (p, o, true) ∈ chainInfos L t → p = L.map PyItem.name ++ [t.name] ∧ o = t := by
  intro L
  induction L with
  | nil =>
    intro t p o hm
    rw [chainInfos] at hm
    simp at hm
    exact ⟨by simp [hm.1], hm.2⟩
  | cons a l ih =>
    intro t p o hm
    rw [chainInfos, List.mem_cons] at hm
    rcases hm with hm | hm
    · cases hm
    · obtain ⟨e, he, heq⟩ := List.mem_map.mp hm
      obtain ⟨p2, o2, b2⟩ := e
      rw [Prod.mk.injEq, Prod.mk.injEq] at heq
      obtain ⟨hp, ho, hb⟩ := heq
      subst hb
      obtain ⟨hp2, ho2⟩ := ih t p2 o2 he
      subst ho2
      refine ⟨?_, ho.symm⟩
      rw [← hp, hp2]
      simp

/-- A container-flagged chain triple names a container, with a nonempty
path that is a prefix of the container names. -/
theorem chain_mem_cont : ∀ (L : List PyItem) (t : PyItem) (p : List String) (o : PyItem),
    (p, o, false) ∈ chainInfos L t →
      o ∈ L ∧ p ≠ [] ∧ p <+: L.map PyItem.name := by
  intro L
  induction L with
  | nil =>
    intro t p o hm
    rw [chainInfos] at hm
    simp at hm
  | cons a l ih =>
    intro t p o hm
    rw [chainInfos, List.mem_cons] at hm
    rcases hm with hm | hm
    · rw [Prod.mk.injEq, Prod.mk.injEq] at hm
      obtain ⟨hp, ho, -⟩ := hm
      subst hp
      refine ⟨by simp [← ho], by simp, ?_⟩
      rw [List.map_cons]
      exact ⟨l.map PyItem.name, rfl⟩
    · obtain ⟨e, he, heq⟩ := List.mem_map.mp hm
      obtain ⟨p2, o2, b2⟩ := e
      rw [Prod.mk.injEq, Prod.mk.injEq] at heq
      obtain ⟨hp, ho, hb⟩ := heq
      subst hb
      obtain ⟨hmem, hne, hpre⟩ := ih t p2 o2 he
      subst ho
      refine ⟨by simp [hmem], by simp [← hp], ?_⟩
      rw [← hp, List.map_cons]
      exact (List.prefix_cons_inj a.name).mpr hpre

/-- Every chain triple of a nonempty-container chain starts with the first
container's name. -/
theorem chain_head (a : PyItem) (l : List PyItem) (t : PyItem)
    (x : List String × PyItem × Bool) (hx : x ∈ chainInfos (a :: l) t) :
    ∃ r, x.1 = a.name :: r := by
  rw [chainInfos, List.mem_cons] at hx
  rcases hx with hx | hx
  · subst hx
    exact ⟨[], rfl⟩
  · obtain ⟨e, -, he⟩ := List.mem_map.mp hx
    exact ⟨e.1, by subst he; rfl⟩

/-- Every well-formed tree has a leaf triple (by induction on a size
bound). -/
theorem wf_has_leaf : ∀ (fuel : Nat) (h : Hier), sizeOf h ≤ fuel → wfH h = true →
    ∃ p o, (p, o, true) ∈ nodeInfos h := by
  intro fuel
  induction fuel with
  | zero =>
    intro h hsz
    cases h with
    | mk n o c => simp at hsz
  | succ fuel ih =>
    intro h hsz hwf
    cases h with
    | mk n o c =>
      cases c with
      | none => exact ⟨[n], o, by rw [nodeInfos]; simp⟩
      | some cs =>
        rw [wfH, Bool.and_eq_true, Bool.and_eq_true, Bool.and_eq_true] at hwf
        obtain ⟨⟨⟨-, hne⟩, -⟩, hwl⟩ := hwf
        cases cs with
        | nil => simp at hne
        | cons c0 rest =>
          have hwf0 : wfH c0 = true := (wfList_iff _).mp hwl c0 (by simp)
          have hsz0 : sizeOf c0 ≤ fuel := by
            simp at hsz
            omega
          obtain ⟨p, o2, hm⟩ := ih c0 hsz0 hwf0
          exact ⟨n :: p, o2, nodeInfos_child n o _ c0 (by simp) (p, o2, true) hm⟩

/-- Under every container triple of a well-formed tree there is a leaf
triple whose path strictly extends it. -/
theorem wf_cont_leaf : ∀ (fuel : Nat) (h : Hier), sizeOf h ≤ fuel → wfH h = true →
    ∀ (p : List String) (o : PyItem), (p, o, false) ∈ nodeInfos h →
      ∃ p2 o2, (p2, o2, true) ∈ nodeInfos h ∧ p <+: p2 ∧ p ≠ p2 := by
  intro fuel
  induction fuel with
  | zero =>
    intro h hsz
    cases h with
    | mk n o c => simp at hsz
  | succ fuel ih =>
    intro h hsz hwf p o hm
    cases h with
    | mk n o0 c =>
      cases c with
      | none =>
        rw [nodeInfos] at hm
        simp at hm
      | some cs =>
        rw [wfH, Bool.and_eq_true, Bool.and_eq_true, Bool.and_eq_true] at hwf
        obtain ⟨⟨⟨-, hne⟩, -⟩, hwl⟩ := hwf
        rw [nodeInfos, List.mem_cons] at hm
        rcases hm with hm | hm
        · rw [Prod.mk.injEq, Prod.mk.injEq] at hm
          obtain ⟨hp, -, -⟩ := hm
          subst hp
          cases cs with
          | nil => simp at hne
          | cons c0 rest =>
            have hwf0 : wfH c0 = true := (wfList_iff _).mp hwl c0 (by simp)
            have hsz0 : sizeOf c0 ≤ fuel := by
              simp at hsz
              omega
            obtain ⟨p2, o2, hm2⟩ := wf_has_leaf fuel c0 hsz0 hwf0
            refine ⟨n :: p2, o2,
              nodeInfos_child n o0 _ c0 (by simp) (p2, o2, true) hm2, ?_, ?_⟩
            · exact ⟨p2, rfl⟩
            · intro hcon
              obtain ⟨r, hr⟩ := nodeInfos_head c0 (p2, o2, true) hm2
              have hr2 : p2 = c0.name :: r := hr
              rw [List.cons.injEq] at hcon
              rw [← hcon.2] at hr2
              cases hr2
        · obtain ⟨e, he, heq⟩ := List.mem_map.mp hm
          obtain ⟨p1, o1, b1⟩ := e
          rw [Prod.mk.injEq, Prod.mk.injEq] at heq
          obtain ⟨hp, ho, hb⟩ := heq
          obtain ⟨c0, hc0, hec⟩ := (mem_nodeInfosList _ cs).mp he
          have hwf0 : wfH c0 = true := (wfList_iff _).mp hwl c0 hc0
          have hsz0 : sizeOf c0 ≤ fuel := by
            have hlt : sizeOf c0 < sizeOf cs := List.sizeOf_lt_of_mem hc0
            simp at hsz
            omega
          subst hb
          obtain ⟨p2, o2, hm2, hpre, hneq⟩ := ih c0 hsz0 hwf0 p1 o1 hec
          refine ⟨n :: p2, o2,
            nodeInfos_child n o0 _ c0 hc0 (p2, o2, true) hm2, ?_, ?_⟩
          · rw [← hp]
            exact (List.prefix_cons_inj n).mpr hpre
          · rw [← hp]
            intro hcon
            rw [List.cons.injEq] at hcon
            exact hneq hcon.2

/-- Merging into an empty grandchild list is the identity. -/
theorem mergeInto_nil (p : Hier) : mergeInto p [] = some p := rfl

/-- Merging the grandchildren one at a time. -/
theorem mergeInto_cons (p g : Hier) (rest : List Hier) :
    mergeInto p (g :: rest)
      = match mergeChildToParent p g with
        | none => none
        | some p2 => mergeInto p2 rest := rfl

/-- Unfolding of `merge_child_to_parent` on a parent with a children
dict. -/
theorem merge_unfold (pn : String) (po : PyItem) (cs : List Hier) (child : Hier) :
    mergeChildToParent (Hier.mk pn po (some cs)) child
      = match findByName cs child.name with
        | none => some (Hier.mk pn po (some (cs ++ [child])))
        | some ex =>
          match child with
          | .mk _ _ none => some (Hier.mk pn po (some cs))
          | .mk cn _ (some gcs) =>
            match mergeInto ex gcs with
            | none => none
            | some ex2 => some (Hier.mk pn po (some (updateByName cs cn ex2))) := by
  cases child with
  | mk cn co cc =>
    cases cc with
    | none => rfl
    | some gcs => rfl

/-- Decomposition of the node triples of a tree with a children dict. -/
theorem mem_nodeInfos_some (pn : String) (po : PyItem) (cs : List Hier)
    (x : List String × PyItem × Bool) :
    x ∈ nodeInfos (Hier.mk pn po (some cs)) ↔
      x = ([pn], po, false) ∨ ∃ c ∈ cs, ∃ e ∈ nodeInfos c, x = (pn :: e.1, e.2) := by
  rw [nodeInfos, List.mem_cons]
  constructor
  · rintro (h | h)
    · exact Or.inl h
    · obtain ⟨e, he, heq⟩ := List.mem_map.mp h
      obtain ⟨c, hc, hec⟩ := (mem_nodeInfosList _ cs).mp he
      exact Or.inr ⟨c, hc, e, hec, heq.symm⟩
  · rintro (h | ⟨c, hc, e, hec, heq⟩)
    · exact Or.inl h
    · right
      rw [List.mem_map]
      exact ⟨e, (mem_nodeInfosList _ cs).mpr ⟨c, hc, hec⟩, heq.symm⟩

/-- Unpacked well-formedness of a tree with a children dict. -/
theorem wfH_some_iff (pn : String) (po : PyItem) (cs : List Hier) :
    wfH (Hier.mk pn po (some cs)) = true ↔
      pn = po.name ∧ cs ≠ [] ∧ nodupNames cs = true ∧ wfList cs = true := by
  rw [wfH, Bool.and_eq_true, Bool.and_eq_true, Bool.and_eq_true]
  constructor
  · rintro ⟨⟨⟨h1, h2⟩, h3⟩, h4⟩
    exact ⟨by simpa using h1, by simpa using h2, h3, h4⟩
  · rintro ⟨h1, h2, h3, h4⟩
    exact ⟨⟨⟨by simpa using h1, by simpa using h2⟩, h3⟩, h4⟩

/-- Well-formedness of a leaf tree. -/
theorem wfH_none_iff (pn : String) (po : PyItem) :
    wfH (Hier.mk pn po none) = true ↔ pn = po.name := by
  rw [wfH]
  simp

/-- Merging one leaf's single-path chain into a well-formed tree whose leaf
triples cannot sit strictly along or strictly beyond the chain's path:
the merge succeeds, preserves the tree's root and everything in it, adds
exactly the chain's triples, and ends with the chain's leaf present. -/
theorem merge_chain :
    ∀ (L2 : List PyItem) (t : PyItem) (pn : String) (po : PyItem) (cs : List Hier),
      wfH (Hier.mk pn po (some cs)) = true →
      (∀ p o, (pn :: p, o, true) ∈ nodeInfos (Hier.mk pn po (some cs)) →
        (p <+: (L2.map PyItem.name ++ [t.name]) ∨ (L2.map PyItem.name ++ [t.name]) <+: p) →
        p = L2.map PyItem.name ++ [t.name] ∧ o = t) →
      ∃ cs2,
        mergeChildToParent (Hier.mk pn po (some cs)) (graft L2 (leafH t))
          = some (Hier.mk pn po (some cs2)) ∧
        wfH (Hier.mk pn po (some cs2)) = true ∧
        (∀ x, x ∈ nodeInfos (Hier.mk pn po (some cs2)) →
          x ∈ nodeInfos (Hier.mk pn po (some cs)) ∨
            x ∈ (chainInfos L2 t).map (fun e => (pn :: e.1, e.2))) ∧
        (∀ x, x ∈ nodeInfos (Hier.mk pn po (some cs)) →
          x ∈ nodeInfos (Hier.mk pn po (some cs2))) ∧
        ((pn :: (L2.map PyItem.name ++ [t.name]), t, true) ∈
          nodeInfos (Hier.mk pn po (some cs2))) ∧
        (∀ p o, (p, o, false) ∈ chainInfos L2 t →
          ∃ o2, (pn :: p, o2, false) ∈ nodeInfos (Hier.mk pn po (some cs2))) := by
  intro L2
  induction L2 with
  | nil =>
    intro t pn po cs hwf hcond
    simp only [List.map_nil, List.nil_append] at hcond ⊢
    rw [show graft [] (leafH t) = Hier.mk t.name t none from rfl, merge_unfold]
    simp only [Hier.name]
    cases hf : findByName cs t.name with
    | none =>
      refine ⟨cs ++ [Hier.mk t.name t none], rfl, ?_, ?_, ?_, ?_, ?_⟩
      · rw [wfH_some_iff] at hwf ⊢
        refine ⟨hwf.1, by simp, ?_, ?_⟩
        · refine nodupNames_append_fresh cs _ hwf.2.2.1 ?_
          intro c hc
          exact (findByName_none_iff cs t.name).mp hf c hc
        · rw [wfList_iff]
          intro c hc
          rw [List.mem_append] at hc
          rcases hc with hc | hc
          · exact (wfList_iff cs).mp hwf.2.2.2 c hc
          · rw [List.mem_singleton] at hc
            subst hc
            rw [wfH_none_iff]
      · intro x hx
        rw [mem_nodeInfos_some] at hx
        rcases hx with hx | ⟨c, hc, e, hec, heq⟩
        · exact Or.inl (by rw [mem_nodeInfos_some]; exact Or.inl hx)
        · rw [List.mem_append] at hc
          rcases hc with hc | hc
          · exact Or.inl (by rw [mem_nodeInfos_some]; exact Or.inr ⟨c, hc, e, hec, heq⟩)
          · rw [List.mem_singleton] at hc
            subst hc
            rw [nodeInfos] at hec
            rw [List.mem_singleton] at hec
            subst hec
            subst heq
            right
            simp [chainInfos]
      · intro x hx
        rw [mem_nodeInfos_some] at hx ⊢
        rcases hx with hx | ⟨c, hc, e, hec, heq⟩
        · exact Or.inl hx
        · exact Or.inr ⟨c, by simp [hc], e, hec, heq⟩
      · rw [mem_nodeInfos_some]
        right
        refine ⟨Hier.mk t.name t none, by simp, ([t.name], t, true), ?_, rfl⟩
        rw [nodeInfos]
        simp
      · intro p o hm
        rw [chainInfos] at hm
        simp at hm
    | some ex =>
      obtain ⟨hexmem, hexname⟩ := findByName_some_mem cs t.name ex hf
      have htrip := nodeInfos_child pn po cs ex hexmem
        ([ex.name], ex.obj, ex.children.isNone) (nodeInfos_self ex)
      rw [hexname] at htrip
      cases hexf : ex.children with
      | some ecs =>
        exfalso
        rw [hexf] at htrip
        simp only [Option.isNone_some] at htrip
        obtain ⟨p2, o2, hm2, hpre, hneq⟩ := wf_cont_leaf (sizeOf (Hier.mk pn po (some cs)))
          (Hier.mk pn po (some cs)) le_rfl hwf (pn :: [t.name]) ex.obj htrip
        obtain ⟨r, hr⟩ := nodeInfos_head _ (p2, o2, true) hm2
        have hr2 : p2 = pn :: r := hr
        subst hr2
        have hpr : [t.name] <+: r := by
          have := (List.prefix_cons_inj pn).mp hpre
          exact this
        obtain ⟨hreq, -⟩ := hcond r o2 hm2 (Or.inr hpr)
        exact hneq (by rw [hreq])
      | none =>
        rw [hexf] at htrip
        simp only [Option.isNone_none] at htrip
        obtain ⟨-, hobj⟩ := hcond [t.name] ex.obj htrip (Or.inl (by simp))
        refine ⟨cs, rfl, hwf, fun x hx => Or.inl hx, fun x hx => hx, ?_, ?_⟩
        · rw [hobj] at htrip
          exact htrip
        · intro p o hm
          rw [chainInfos] at hm
          simp at hm
  | cons m L3 ih =>
    intro t pn po cs hwf hcond
    simp only [List.map_cons, List.cons_append] at hcond ⊢
    rw [show graft (m :: L3) (leafH t)
      = Hier.mk (PyItem.name m) m (some [graft L3 (leafH t)]) from rfl, merge_unfold]
    simp only [Hier.name]
    cases hf : findByName cs (PyItem.name m) with
    | none =>
      refine ⟨cs ++ [Hier.mk (PyItem.name m) m (some [graft L3 (leafH t)])], rfl, ?_, ?_, ?_, ?_, ?_⟩
      · rw [wfH_some_iff] at hwf ⊢
        refine ⟨hwf.1, by simp, ?_, ?_⟩
        · refine nodupNames_append_fresh cs _ hwf.2.2.1 ?_
          intro c hc
          exact (findByName_none_iff cs (PyItem.name m)).mp hf c hc
        · rw [wfList_iff]
          intro c hc
          rw [List.mem_append] at hc
          rcases hc with hc | hc
          · exact (wfList_iff cs).mp hwf.2.2.2 c hc
          · rw [List.mem_singleton] at hc
            subst hc
            exact wf_graft (m :: L3) t
      · intro x hx
        rw [mem_nodeInfos_some] at hx
        rcases hx with hx | ⟨c, hc, e, hec, heq⟩
        · exact Or.inl (by rw [mem_nodeInfos_some]; exact Or.inl hx)
        · rw [List.mem_append] at hc
          rcases hc with hc | hc
          · exact Or.inl (by rw [mem_nodeInfos_some]; exact Or.inr ⟨c, hc, e, hec, heq⟩)
          · rw [List.mem_singleton] at hc
            subst hc
            have hec2 : e ∈ chainInfos (m :: L3) t := by
              rw [← nodeInfos_graft]
              exact hec
            right
            rw [List.mem_map]
            exact ⟨e, hec2, heq.symm⟩
      · intro x hx
        rw [mem_nodeInfos_some] at hx ⊢
        rcases hx with hx | ⟨c, hc, e, hec, heq⟩
        · exact Or.inl hx
        · exact Or.inr ⟨c, by simp [hc], e, hec, heq⟩
      · rw [mem_nodeInfos_some]
        right
        refine ⟨Hier.mk (PyItem.name m) m (some [graft L3 (leafH t)]), by simp,
          ((m :: L3).map PyItem.name ++ [t.name], t, true), ?_, by simp⟩
        rw [show (Hier.mk (PyItem.name m) m (some [graft L3 (leafH t)]))
          = graft (m :: L3) (leafH t) from rfl, nodeInfos_graft]
        exact chain_leaf_mem (m :: L3) t
      · intro p o hm
        refine ⟨o, ?_⟩
        rw [mem_nodeInfos_some]
        right
        refine ⟨Hier.mk (PyItem.name m) m (some [graft L3 (leafH t)]), by simp,
          (p, o, false), ?_, rfl⟩
        rw [show (Hier.mk (PyItem.name m) m (some [graft L3 (leafH t)]))
          = graft (m :: L3) (leafH t) from rfl, nodeInfos_graft]
        exact hm
    | some ex =>
      obtain ⟨hexmem, hexname⟩ := findByName_some_mem cs (PyItem.name m) ex hf
      have hq3ne : L3.map PyItem.name ++ [t.name] ≠ [] := by simp
      cases ex with
      | mk exn exo exc =>
        have hexn : exn = PyItem.name m := hexname
        subst hexn
        cases exc with
        | none =>
          exfalso
          have htrip := nodeInfos_child pn po cs _ hexmem
            ([PyItem.name m], exo, true) (nodeInfos_self _)
          obtain ⟨heq, -⟩ := hcond [PyItem.name m] exo htrip
            (Or.inl ⟨L3.map PyItem.name ++ [t.name], rfl⟩)
          rw [List.cons.injEq] at heq
          exact hq3ne heq.2.symm
        | some ecs =>
          have hwfEx : wfH (Hier.mk (PyItem.name m) exo (some ecs)) = true := by
            rw [wfH_some_iff] at hwf
            exact (wfList_iff cs).mp hwf.2.2.2 _ hexmem
          have hcondEx : ∀ p o, ((PyItem.name m) :: p, o, true) ∈
              nodeInfos (Hier.mk (PyItem.name m) exo (some ecs)) →
              (p <+: (L3.map PyItem.name ++ [t.name]) ∨
                (L3.map PyItem.name ++ [t.name]) <+: p) →
              p = L3.map PyItem.name ++ [t.name] ∧ o = t := by
            intro p o hx hpre
            have hlift := nodeInfos_child pn po cs _ hexmem
              ((PyItem.name m) :: p, o, true) hx
            have hpre2 : ((PyItem.name m) :: p <+:
                (PyItem.name m) :: (L3.map PyItem.name ++ [t.name])) ∨
                ((PyItem.name m) :: (L3.map PyItem.name ++ [t.name]) <+:
                  (PyItem.name m) :: p) := by
              rcases hpre with hpre | hpre
              · exact Or.inl ((List.prefix_cons_inj (PyItem.name m)).mpr hpre)
              · exact Or.inr ((List.prefix_cons_inj (PyItem.name m)).mpr hpre)
            obtain ⟨heq, ho⟩ := hcond ((PyItem.name m) :: p) o hlift hpre2
            rw [List.cons.injEq] at heq
            exact ⟨heq.2, ho⟩
          obtain ⟨ecs2, hmerge, hwf2, hM1, hM2, hM3, hM4⟩ :=
            ih t (PyItem.name m) exo ecs hwfEx hcondEx
          obtain ⟨cs1, cs2', heqcs, hfr1, hupd⟩ :=
            findByName_split cs (PyItem.name m) _ hf
          simp only []
          rw [mergeInto_cons, hmerge]
          simp only []
          rw [mergeInto_nil]
          simp only []
          rw [hupd]
          refine ⟨cs1 ++ (Hier.mk (PyItem.name m) exo (some ecs2)) :: cs2', rfl,
            ?_, ?_, ?_, ?_, ?_⟩
          · rw [wfH_some_iff] at hwf ⊢
            refine ⟨hwf.1, by simp, ?_, ?_⟩
            · refine nodupNames_replace cs1 cs2' (Hier.mk (PyItem.name m) exo (some ecs))
                (Hier.mk (PyItem.name m) exo (some ecs2)) rfl ?_
              rw [← heqcs]
              exact hwf.2.2.1
            · rw [wfList_iff]
              intro c hc
              rw [List.mem_append, List.mem_cons] at hc
              have hold : ∀ c2 ∈ cs, wfH c2 = true := (wfList_iff cs).mp hwf.2.2.2
              rcases hc with hc | hc | hc
              · exact hold c (by rw [heqcs]; simp [hc])
              · subst hc
                exact hwf2
              · exact hold c (by rw [heqcs]; simp [hc])
          · intro x hx
            rw [mem_nodeInfos_some] at hx
            rcases hx with hx | ⟨c, hc, e, hec, heq⟩
            · exact Or.inl (by rw [mem_nodeInfos_some]; exact Or.inl hx)
            · rw [List.mem_append, List.mem_cons] at hc
              rcases hc with hc | hc | hc
              · exact Or.inl (by
                  rw [mem_nodeInfos_some]
                  exact Or.inr ⟨c, by rw [heqcs]; simp [hc], e, hec, heq⟩)
              · subst hc
                rcases hM1 e hec with he | he
                · exact Or.inl (by
                    rw [mem_nodeInfos_some]
                    exact Or.inr ⟨_, hexmem, e, he, heq⟩)
                · obtain ⟨e3, he3, he3eq⟩ := List.mem_map.mp he
                  right
                  rw [List.mem_map]
                  refine ⟨((PyItem.name m) :: e3.1, e3.2), ?_, ?_⟩
                  · rw [chainInfos, List.mem_cons]
                    right
                    rw [List.mem_map]
                    exact ⟨e3, he3, rfl⟩
                  · rw [heq, ← he3eq]
              · exact Or.inl (by
                  rw [mem_nodeInfos_some]
                  exact Or.inr ⟨c, by rw [heqcs]; simp [hc], e, hec, heq⟩)
          · intro x hx
            rw [mem_nodeInfos_some] at hx ⊢
            rcases hx with hx | ⟨c, hc, e, hec, heq⟩
            · exact Or.inl hx
            · rw [heqcs, List.mem_append, List.mem_cons] at hc
              rcases hc with hc | hc | hc
              · exact Or.inr ⟨c, by simp [hc], e, hec, heq⟩
              · subst hc
                exact Or.inr ⟨_, by simp, e, hM2 e hec, heq⟩
              · exact Or.inr ⟨c, by simp [hc], e, hec, heq⟩
          · rw [mem_nodeInfos_some]
            right
            exact ⟨_, by simp, _, hM3, rfl⟩
          · intro p o hm
            rw [chainInfos, List.mem_cons] at hm
            rcases hm with hm | hm
            · rw [Prod.mk.injEq, Prod.mk.injEq] at hm
              obtain ⟨hp, ho, -⟩ := hm
              subst hp
              refine ⟨exo, ?_⟩
              rw [mem_nodeInfos_some]
              right
              refine ⟨Hier.mk (PyItem.name m) exo (some ecs2), by simp,
                ([PyItem.name m], exo, false), ?_, rfl⟩
              exact nodeInfos_self (Hier.mk (PyItem.name m) exo (some ecs2))
            · obtain ⟨e3, he3, he3eq⟩ := List.mem_map.mp hm
              obtain ⟨p3, o3, b3⟩ := e3
              rw [Prod.mk.injEq, Prod.mk.injEq] at he3eq
              obtain ⟨hp, ho, hb⟩ := he3eq
              subst hb
              subst ho
              obtain ⟨o2, ho2⟩ := hM4 p3 o3 he3
              refine ⟨o2, ?_⟩
              rw [mem_nodeInfos_some]
              right
              refine ⟨_, by simp, ((PyItem.name m) :: p3, o2, false), ho2, ?_⟩
              rw [← hp]

/-- Unfolding a grafted chain one level. -/
theorem graft_cons_def (a : PyItem) (L : List PyItem) (h : Hier) :
    graft (a :: L) h = Hier.mk (PyItem.name a) a (some [graft L h]) := rfl

/-- An item with a nonempty container list has a parent. -/
theorem containersOf_parent (t : PyItem) (h : containersOf t ≠ []) :
    ∃ p, t.parent = some p := by
  cases hp : t.parent with
  | none => exact absurd (by rw [containersOf, hp]) h
  | some p => exact ⟨p, rfl⟩

/-- The path of an item with containers `m :: L3`. -/
theorem itemPath_cons (t m : PyItem) (L3 : List PyItem) (hL : containersOf t = m :: L3) :
    itemPath t = PyItem.name m :: (L3.map PyItem.name ++ [t.name]) := by
  rw [itemPath, hL, List.map_cons, List.cons_append]

/-- The chain entries of an item with containers `m :: L3`. -/
theorem chainEntries_cons (t m : PyItem) (L3 : List PyItem) (hL : containersOf t = m :: L3) :
    chainEntries t = chainInfos (m :: L3) t := by
  rw [chainEntries, hL]

/-- The invariant of `pytest_collection_finish`'s loop: starting from a
forest satisfying it for the processed items, processing the remaining
items (each with at least one container, under sibling-path uniqueness
over a common universe) succeeds and reestablishes it for all items. -/
theorem master_aux :
    ∀ (todo : List PyItem) (univ done : List PyItem) (F : List Hier),
      (∀ t ∈ univ, containersOf t ≠ []) →
      (∀ t1 ∈ univ, ∀ t2 ∈ univ, itemPath t1 <+: itemPath t2 → t1 = t2) →
      (∀ t ∈ todo, t ∈ univ) → (∀ t ∈ done, t ∈ univ) →
      ForestInv done F →
      ∃ F2, collectionFinishAux todo F = some F2 ∧ ForestInv (done ++ todo) F2 := by
  intro todo
  induction todo with
  | nil =>
    intro univ done F _ _ _ _ hInv
    exact ⟨F, rfl, by simpa using hInv⟩
  | cons t rest ih =>
    intro univ done F hpar hpre htodo hdone hInv
    obtain ⟨hwfF, hndF, hSound, hLeaf, hCont⟩ := hInv
    have htu : t ∈ univ := htodo t (by simp)
    have hcne : containersOf t ≠ [] := hpar t htu
    obtain ⟨pp, hpp⟩ := containersOf_parent t hcne
    have hgt : getTestModuleTree t = some (graft (containersOf t) (leafH t)) :=
      getTestModuleTree_graft t pp hpp
    cases hL : containersOf t with
    | nil => exact absurd hL hcne
    | cons m L3 =>
      rw [hL] at hgt
      rw [collectionFinishAux, hgt]
      simp only []
      rw [graft_cons_def]
      simp only [Hier.name]
      have hpathT : itemPath t = PyItem.name m :: (L3.map PyItem.name ++ [t.name]) :=
        itemPath_cons t m L3 hL
      have hentT : chainEntries t = chainInfos (m :: L3) t := chainEntries_cons t m L3 hL
      cases hfind : findByName F (PyItem.name m) with
      | none =>
        have hInv2 : ForestInv (done ++ [t])
            (F ++ [Hier.mk (PyItem.name m) m (some [graft L3 (leafH t)])]) := by
          refine ⟨?_, ?_, ?_, ?_, ?_⟩
          · rw [wfList_iff]
            intro c hc
            rw [List.mem_append] at hc
            rcases hc with hc | hc
            · exact (wfList_iff F).mp hwfF c hc
            · rw [List.mem_singleton] at hc
              subst hc
              exact wf_graft (m :: L3) t
          · refine nodupNames_append_fresh F _ hndF ?_
            intro c hc
            exact (findByName_none_iff F (PyItem.name m)).mp hfind c hc
          · intro x hx
            rw [nodeInfosList_append] at hx
            rw [List.mem_append] at hx
            rcases hx with hx | hx
            · obtain ⟨t2, ht2, hx2⟩ := hSound x hx
              exact ⟨t2, by simp [ht2], hx2⟩
            · rw [show nodeInfosList [Hier.mk (PyItem.name m) m (some [graft L3 (leafH t)])]
                = nodeInfos (Hier.mk (PyItem.name m) m (some [graft L3 (leafH t)])) ++ []
                from rfl, List.append_nil, ← graft_cons_def, nodeInfos_graft] at hx
              exact ⟨t, by simp, by rw [hentT]; exact hx⟩
          · intro t2 ht2
            rw [List.mem_append] at ht2
            rcases ht2 with ht2 | ht2
            · rw [nodeInfosList_append, List.mem_append]
              exact Or.inl (hLeaf t2 ht2)
            · rw [List.mem_singleton] at ht2
              rw [ht2]
              rw [nodeInfosList_append, List.mem_append]
              right
              rw [show nodeInfosList [Hier.mk (PyItem.name m) m (some [graft L3 (leafH t)])]
                = nodeInfos (Hier.mk (PyItem.name m) m (some [graft L3 (leafH t)])) ++ []
                from rfl, List.append_nil, ← graft_cons_def, nodeInfos_graft]
              rw [hpathT]
              exact chain_leaf_mem (m :: L3) t
          · intro t2 ht2 p o hm
            rw [List.mem_append] at ht2
            rcases ht2 with ht2 | ht2
            · obtain ⟨o2, ho2⟩ := hCont t2 ht2 p o hm
              refine ⟨o2, ?_⟩
              rw [nodeInfosList_append, List.mem_append]
              exact Or.inl ho2
            · rw [List.mem_singleton] at ht2
              rw [ht2] at hm
              refine ⟨o, ?_⟩
              rw [nodeInfosList_append, List.mem_append]
              right
              rw [show nodeInfosList [Hier.mk (PyItem.name m) m (some [graft L3 (leafH t)])]
                = nodeInfos (Hier.mk (PyItem.name m) m (some [graft L3 (leafH t)])) ++ []
                from rfl, List.append_nil, ← graft_cons_def, nodeInfos_graft]
              rw [hentT] at hm
              exact hm
        obtain ⟨F2, hrun2, hInv3⟩ := ih univ (done ++ [t]) _ hpar hpre
          (fun x hx => htodo x (by simp [hx]))
          (fun x hx => by
            rw [List.mem_append] at hx
            rcases hx with hx | hx
            · exact hdone x hx
            · rw [List.mem_singleton] at hx
              subst hx
              exact htu) hInv2
        refine ⟨F2, hrun2, ?_⟩
        rw [show (done ++ [t]) ++ rest = done ++ t :: rest from by simp] at hInv3
        exact hInv3
      | some ex =>
        obtain ⟨hexmem, hexname⟩ := findByName_some_mem F (PyItem.name m) ex hfind
        cases ex with
        | mk exn exo exc =>
          have hexn : exn = PyItem.name m := hexname
          subst hexn
          cases exc with
          | none =>
            exfalso
            have hself : ([PyItem.name m], exo, true) ∈ nodeInfosList F :=
              (mem_nodeInfosList _ F).mpr ⟨_, hexmem,
                nodeInfos_self (Hier.mk (PyItem.name m) exo none)⟩
            obtain ⟨t2, ht2, hx2⟩ := hSound _ hself
            have ht2u : t2 ∈ univ := hdone t2 ht2
            obtain ⟨hpath2, -⟩ := chain_mem_leaf (containersOf t2) t2 _ _ hx2
            have hitem2 : itemPath t2 = [PyItem.name m] := by
              have hdef : itemPath t2 = (containersOf t2).map PyItem.name ++ [t2.name] := rfl
              rw [hdef, ← hpath2]
            have hpre2 : itemPath t2 <+: itemPath t := by
              rw [hitem2, hpathT]
              exact ⟨L3.map PyItem.name ++ [t.name], rfl⟩
            have ht2t : t2 = t := hpre t2 ht2u t htu hpre2
            rw [ht2t] at hitem2
            rw [hpathT] at hitem2
            rw [List.cons.injEq] at hitem2
            have hnil : L3.map PyItem.name ++ [t.name] = [] := hitem2.2
            simp at hnil
          | some ecs =>
            have hwfEx : wfH (Hier.mk (PyItem.name m) exo (some ecs)) = true :=
              (wfList_iff F).mp hwfF _ hexmem
            have hcond3 : ∀ p o, ((PyItem.name m) :: p, o, true) ∈
                nodeInfos (Hier.mk (PyItem.name m) exo (some ecs)) →
                (p <+: (L3.map PyItem.name ++ [t.name]) ∨
                  (L3.map PyItem.name ++ [t.name]) <+: p) →
                p = L3.map PyItem.name ++ [t.name] ∧ o = t := by
              intro p o hx hporq
              have hinF : ((PyItem.name m) :: p, o, true) ∈ nodeInfosList F :=
                (mem_nodeInfosList _ F).mpr ⟨_, hexmem, hx⟩
              obtain ⟨t2, ht2, hx2⟩ := hSound _ hinF
              have ht2u : t2 ∈ univ := hdone t2 ht2
              obtain ⟨hpath2, hobj2⟩ := chain_mem_leaf (containersOf t2) t2 _ _ hx2
              have hpath2i : itemPath t2 = (PyItem.name m) :: p := by
                have hdef : itemPath t2 = (containersOf t2).map PyItem.name ++ [t2.name] := rfl
                rw [hdef]
                exact hpath2.symm
              have ht2t : t2 = t := by
                rcases hporq with hporq | hporq
                · refine hpre t2 ht2u t htu ?_
                  rw [hpath2i, hpathT]
                  exact (List.prefix_cons_inj _).mpr hporq
                · refine (hpre t htu t2 ht2u ?_).symm
                  rw [hpath2i, hpathT]
                  exact (List.prefix_cons_inj _).mpr hporq
              rw [ht2t] at hpath2i hobj2
              rw [hpathT] at hpath2i
              rw [List.cons.injEq] at hpath2i
              exact ⟨hpath2i.2.symm, hobj2⟩
            obtain ⟨ecs2, hmerge, hwf2, hM1, hM2, hM3, hM4⟩ :=
              merge_chain L3 t (PyItem.name m) exo ecs hwfEx hcond3
            obtain ⟨cs1, cs2', heqF, hfr1, hupd⟩ :=
              findByName_split F (PyItem.name m) _ hfind
            simp only []
            rw [show (Hier.mk (PyItem.name m) m
              (some [graft L3 (leafH t)])).children = some [graft L3 (leafH t)] from rfl]
            simp only [List.head?_cons]
            rw [hmerge]
            simp only []
            rw [hupd]
            have hMONO : ∀ x, x ∈ nodeInfosList F →
                x ∈ nodeInfosList (cs1 ++ (Hier.mk (PyItem.name m) exo (some ecs2)) :: cs2') := by
              intro x hx
              rw [heqF] at hx
              rw [mem_nodeInfosList] at hx ⊢
              obtain ⟨c, hc, hxc⟩ := hx
              rw [List.mem_append, List.mem_cons] at hc
              rcases hc with hc | hc | hc
              · exact ⟨c, by simp [hc], hxc⟩
              · subst hc
                exact ⟨_, by simp, hM2 x hxc⟩
              · exact ⟨c, by simp [hc], hxc⟩
            have hInv2 : ForestInv (done ++ [t])
                (cs1 ++ (Hier.mk (PyItem.name m) exo (some ecs2)) :: cs2') := by
              refine ⟨?_, ?_, ?_, ?_, ?_⟩
              · rw [wfList_iff]
                intro c hc
                rw [List.mem_append, List.mem_cons] at hc
                have hold : ∀ c2 ∈ F, wfH c2 = true := (wfList_iff F).mp hwfF
                rcases hc with hc | hc | hc
                · exact hold c (by rw [heqF]; simp [hc])
                · subst hc
                  exact hwf2
                · exact hold c (by rw [heqF]; simp [hc])
              · refine nodupNames_replace cs1 cs2' (Hier.mk (PyItem.name m) exo (some ecs))
                  (Hier.mk (PyItem.name m) exo (some ecs2)) rfl ?_
                rw [← heqF]
                exact hndF
              · intro x hx
                rw [mem_nodeInfosList] at hx
                obtain ⟨c, hc, hxc⟩ := hx
                rw [List.mem_append, List.mem_cons] at hc
                rcases hc with hc | hc | hc
                · obtain ⟨t2, ht2, hx2⟩ := hSound x
                    ((mem_nodeInfosList _ F).mpr ⟨c, by rw [heqF]; simp [hc], hxc⟩)
                  exact ⟨t2, by simp [ht2], hx2⟩
                · subst hc
                  rcases hM1 x hxc with hx2 | hx2
                  · obtain ⟨t2, ht2, hx3⟩ := hSound x
                      ((mem_nodeInfosList _ F).mpr ⟨_, hexmem, hx2⟩)
                    exact ⟨t2, by simp [ht2], hx3⟩
                  · refine ⟨t, by simp, ?_⟩
                    rw [hentT, chainInfos, List.mem_cons]
                    exact Or.inr hx2
                · obtain ⟨t2, ht2, hx2⟩ := hSound x
                    ((mem_nodeInfosList _ F).mpr ⟨c, by rw [heqF]; simp [hc], hxc⟩)
                  exact ⟨t2, by simp [ht2], hx2⟩
              · intro t2 ht2
                rw [List.mem_append] at ht2
                rcases ht2 with ht2 | ht2
                · exact hMONO _ (hLeaf t2 ht2)
                · rw [List.mem_singleton] at ht2
                  rw [ht2]
                  rw [mem_nodeInfosList]
                  refine ⟨Hier.mk (PyItem.name m) exo (some ecs2), by simp, ?_⟩
                  rw [hpathT]
                  exact hM3
              · intro t2 ht2 p o hm
                rw [List.mem_append] at ht2
                rcases ht2 with ht2 | ht2
                · obtain ⟨o2, ho2⟩ := hCont t2 ht2 p o hm
                  exact ⟨o2, hMONO _ ho2⟩
                · rw [List.mem_singleton] at ht2
                  rw [ht2] at hm
                  rw [hentT, chainInfos, List.mem_cons] at hm
                  rcases hm with hm | hm
                  · rw [Prod.mk.injEq, Prod.mk.injEq] at hm
                    obtain ⟨hp, ho, -⟩ := hm
                    subst hp
                    refine ⟨exo, ?_⟩
                    rw [mem_nodeInfosList]
                    refine ⟨Hier.mk (PyItem.name m) exo (some ecs2), by simp, ?_⟩
                    exact nodeInfos_self (Hier.mk (PyItem.name m) exo (some ecs2))
                  · obtain ⟨e3, he3, he3eq⟩ := List.mem_map.mp hm
                    obtain ⟨p3, o3, b3⟩ := e3
                    rw [Prod.mk.injEq, Prod.mk.injEq] at he3eq
                    obtain ⟨hp, ho, hb⟩ := he3eq
                    subst hb
                    subst ho
                    obtain ⟨o2, ho2⟩ := hM4 p3 o3 he3
                    refine ⟨o2, ?_⟩
                    rw [mem_nodeInfosList]
                    refine ⟨Hier.mk (PyItem.name m) exo (some ecs2), by simp, ?_⟩
                    rw [← hp]
                    exact ho2
            obtain ⟨F2, hrun2, hInv3⟩ := ih univ (done ++ [t]) _ hpar hpre
              (fun x hx => htodo x (by simp [hx]))
              (fun x hx => by
                rw [List.mem_append] at hx
                rcases hx with hx | hx
                · exact hdone x hx
                · rw [List.mem_singleton] at hx
                  subst hx
                  exact htu) hInv2
            refine ⟨F2, hrun2, ?_⟩
            rw [show (done ++ [t]) ++ rest = done ++ t :: rest from by simp] at hInv3
            exact hInv3

/-- The empty forest invariant. -/
theorem forestInv_nil : ForestInv [] [] := by
  refine ⟨rfl, rfl, ?_, ?_, ?_⟩
  · intro x hx
    rw [show nodeInfosList [] = [] from rfl] at hx
    cases hx
  · intro t ht
    cases ht
  · intro t ht
    cases ht

/-- The loop of `pytest_collection_finish` succeeds on any item list whose
items all have at least one container and pairwise prefix-free paths, and
the resulting forest satisfies the invariant. -/
theorem master (items : List PyItem)
    (hpar : ∀ t ∈ items, containersOf t ≠ [])
    (hpre : ∀ t1 ∈ items, ∀ t2 ∈ items, itemPath t1 <+: itemPath t2 → t1 = t2) :
    ∃ F, collectionFinishAux items [] = some F ∧ ForestInv items F := by
  obtain ⟨F, hrun, hInv⟩ := master_aux items items [] [] hpar hpre
    (fun t ht => ht) (fun t ht => by cases ht) forestInv_nil
  exact ⟨F, hrun, by simpa using hInv⟩

/-- Distinct names as lists: the Boolean check matches `List.Nodup`. -/
theorem nodupNames_iff_nodup : ∀ (cs : List Hier),
    nodupNames cs = true ↔ (cs.map Hier.name).Nodup := by
  intro cs
  induction cs with
  | nil => simp [nodupNames]
  | cons c rest ih =>
    rw [nodupNames, Bool.and_eq_true, ih, List.map_cons, List.nodup_cons,
      nameFresh_iff]
    constructor
    · rintro ⟨h1, h2⟩
      refine ⟨?_, h2⟩
      intro hc
      obtain ⟨c2, hc2, hc2n⟩ := List.mem_map.mp hc
      exact h1 c2 hc2 hc2n
    · rintro ⟨h1, h2⟩
      refine ⟨?_, h2⟩
      intro c2 hc2 hc2n
      exact h1 (List.mem_map.mpr ⟨c2, hc2, hc2n⟩)

/-- Distinct titles as lists: the Boolean check matches `List.Nodup`. -/
theorem nodupTitles_iff_nodup : ∀ (ds : List TreeData),
    nodupTitles ds = true ↔ (ds.map TreeData.title).Nodup := by
  intro ds
  induction ds with
  | nil => simp [nodupTitles]
  | cons d rest ih =>
    rw [nodupTitles, Bool.and_eq_true, ih, List.map_cons, List.nodup_cons]
    have hfr : titleFresh d.title rest = true ↔ ∀ d2 ∈ rest, d2.title ≠ d.title := by
      clear ih
      induction rest with
      | nil => simp [titleFresh]
      | cons d2 rest2 ih2 =>
        rw [titleFresh, Bool.and_eq_true, ih2]
        constructor
        · rintro ⟨h1, h2⟩ x hx
          rw [List.mem_cons] at hx
          rcases hx with hx | hx
          · subst hx
            simpa using h1
          · exact h2 x hx
        · intro h
          exact ⟨by simpa using h d2 (by simp), fun x hx => h x (by simp [hx])⟩
    rw [hfr]
    constructor
    · rintro ⟨h1, h2⟩
      refine ⟨?_, h2⟩
      intro hc
      obtain ⟨d2, hd2, hd2t⟩ := List.mem_map.mp hc
      exact h1 d2 hd2 hd2t
    · rintro ⟨h1, h2⟩
      refine ⟨?_, h2⟩
      intro d2 hd2 hd2t
      exact h1 (List.mem_map.mpr ⟨d2, hd2, hd2t⟩)

/-- In a well-formed tree or forest all node paths are distinct. -/
theorem wf_paths_nodup :
    ∀ (fuel : Nat),
      (∀ (h : Hier), sizeOf h ≤ fuel → wfH h = true →
        ((nodeInfos h).map (fun e => e.1)).Nodup) ∧
      (∀ (cs : List Hier), sizeOf cs ≤ fuel → wfList cs = true → nodupNames cs = true →
        ((nodeInfosList cs).map (fun e => e.1)).Nodup) := by
  intro fuel
  induction fuel with
  | zero =>
    constructor
    · intro h hsz
      cases h with
      | mk n o c => simp at hsz
    · intro cs hsz
      cases cs with
      | nil => intro _ _; simp [nodeInfosList]
      | cons c rest => simp at hsz
  | succ fuel ih =>
    constructor
    · intro h hsz hwf
      cases h with
      | mk n o c =>
        cases c with
        | none =>
          rw [nodeInfos]
          simp
        | some cs =>
          rw [wfH_some_iff] at hwf
          rw [nodeInfos, List.map_cons, List.map_map]
          rw [List.nodup_cons]
          constructor
          · intro hc
            obtain ⟨e, he, heq⟩ := List.mem_map.mp hc
            obtain ⟨c2, hc2, hec2⟩ := (mem_nodeInfosList _ cs).mp he
            obtain ⟨r, hr⟩ := nodeInfos_head c2 e hec2
            have : ((fun e => (n :: e.1, e.2)) e).1 = n :: e.1 := rfl
            rw [show ((fun e => e.1) ∘ fun e =>
              ((n :: e.1, e.2) : List String × PyItem × Bool)) e = n :: e.1 from rfl] at heq
            rw [hr] at heq
            cases heq
          · have hinner : ((nodeInfosList cs).map (fun e => e.1)).Nodup := by
              refine ih.2 cs ?_ hwf.2.2.2 hwf.2.2.1
              simp at hsz
              omega
            have hmm : (nodeInfosList cs).map ((fun e => e.1) ∘ fun e =>
                ((n :: e.1, e.2) : List String × PyItem × Bool))
                = ((nodeInfosList cs).map (fun e => e.1)).map (fun p => n :: p) := by
              rw [List.map_map]
              rfl
            rw [hmm]
            refine List.Nodup.map ?_ hinner
            intro a b hab
            rw [List.cons.injEq] at hab
            exact hab.2
    · intro cs hsz hwf hnd
      cases cs with
      | nil => simp [nodeInfosList]
      | cons c rest =>
        rw [nodeInfosList, List.map_append]
        rw [wfList, Bool.and_eq_true] at hwf
        rw [nodupNames, Bool.and_eq_true] at hnd
        refine List.Nodup.append ?_ ?_ ?_
        · refine ih.1 c ?_ hwf.1
          simp at hsz
          omega
        · refine ih.2 rest ?_ hwf.2 hnd.2
          simp at hsz
          omega
        · intro p hp1 hp2
          obtain ⟨e1, he1, heq1⟩ := List.mem_map.mp hp1
          obtain ⟨e2, he2, heq2⟩ := List.mem_map.mp hp2
          obtain ⟨c2, hc2, hec2⟩ := (mem_nodeInfosList _ rest).mp he2
          obtain ⟨r1, hr1⟩ := nodeInfos_head c e1 he1
          obtain ⟨r2, hr2⟩ := nodeInfos_head c2 e2 hec2
          have hname : c2.name ≠ c.name := (nameFresh_iff c.name rest).mp hnd.1 c2 hc2
          rw [← heq1] at heq2
          rw [hr1] at heq2
          rw [hr2] at heq2
          rw [List.cons.injEq] at heq2
          exact hname heq2.1

/-- Mapping the path-extension and then the leaf projection commutes with
projecting first and extending titles after. -/
theorem map_leafOut_cons (n : String) (lst : List (List String × PyItem × Bool)) :
    (lst.map (fun e => ((n :: e.1, e.2) : List String × PyItem × Bool))).map leafOut
      = (lst.map leafOut).map (fun y => (n :: y.1, y.2)) := by
  rw [List.map_map, List.map_map]
  refine List.map_congr_left ?_
  intro e _
  rfl

/-- On a well-formed tree whose leaf triples are exactly the Function-kind
objects, `collect_data` succeeds, titles follow node names, the output's
Function-typed nodes are exactly the images of the leaf triples, and
sibling titles stay distinct (simultaneously for trees and forests, by
induction on a size bound). -/
theorem collectData_ok :
    ∀ (fuel : Nat),
      (∀ (h : Hier), sizeOf h ≤ fuel → wfH h = true →
        (∀ x, x ∈ nodeInfos h → (x.2.1.kind == "Function") = x.2.2) →
        ∃ d, collectData h = some d ∧ d.title = h.name ∧
          funcNodes d = (leafInfos h).map leafOut ∧ sibNodup d = true) ∧
      (∀ (cs : List Hier), sizeOf cs ≤ fuel → wfList cs = true →
        (∀ x, x ∈ nodeInfosList cs → (x.2.1.kind == "Function") = x.2.2) →
        ∃ ds, collectDataList cs = some ds ∧ ds.map TreeData.title = cs.map Hier.name ∧
          funcNodesList ds = (leafInfosList cs).map leafOut ∧ sibNodupList ds = true) := by
  intro fuel
  induction fuel with
  | zero =>
    constructor
    · intro h hsz
      cases h with
      | mk n o c => simp at hsz
    · intro cs hsz hwf hkind
      cases cs with
      | nil => exact ⟨[], rfl, rfl, rfl, rfl⟩
      | cons c rest => simp at hsz
  | succ fuel ih =>
    constructor
    · intro h hsz hwf hkind
      cases h with
      | mk n o c =>
        cases c with
        | none =>
          have hk : (o.kind == "Function") = true := by
            have hmem := hkind ([n], o, true) (by rw [nodeInfos]; exact List.Mem.head _)
            simpa using hmem
          rw [wfH_none_iff] at hwf
          refine ⟨TreeData.mk o.kind o.name (reindentOpt o.doc)
            (some (reindent o.src)) none, ?_, ?_, ?_, ?_⟩
          · rw [collectData, if_pos hk]
          · rw [TreeData.title, Hier.name, hwf]
          · rw [funcNodes, if_pos hk, leafInfos, nodeInfos]
            rw [show (([([n], o, true)]) : List (List String × PyItem × Bool)).filter
              (fun e => e.2.2) = [([n], o, true)] from rfl]
            rw [List.map_singleton]
            rw [show leafOut ([n], o, true)
              = ([n], reindentOpt o.doc, some (reindent o.src)) from rfl]
            rw [hwf]
          · rw [sibNodup]
        | some cs =>
          have hk : (o.kind == "Function") = false := by
            have hmem := hkind ([n], o, false) (by rw [nodeInfos]; exact List.Mem.head _)
            simpa using hmem
          rw [wfH_some_iff] at hwf
          have hkcs : ∀ x, x ∈ nodeInfosList cs → (x.2.1.kind == "Function") = x.2.2 := by
            intro x hx
            obtain ⟨c2, hc2, hxc⟩ := (mem_nodeInfosList _ cs).mp hx
            have hmem := hkind (n :: x.1, x.2) (nodeInfos_child n o cs c2 hc2 x hxc)
            simpa using hmem
          obtain ⟨ds, hds, hdst, hdsf, hdss⟩ := ih.2 cs
            (by simp at hsz; omega) hwf.2.2.2 hkcs
          refine ⟨TreeData.mk o.kind o.name (reindentOpt o.doc) none (some ds), ?_, ?_, ?_, ?_⟩
          · rw [collectData, if_neg (by simp [hk]), hds]
          · rw [TreeData.title, Hier.name, hwf.1]
          · rw [funcNodes, if_neg (by simp [hk]), hdsf, List.nil_append]
            have htgt : leafInfos (Hier.mk n o (some cs))
                = (leafInfosList cs).map (fun e => ((n :: e.1, e.2) :
                  List String × PyItem × Bool)) := by
              rw [leafInfos, nodeInfos, List.filter_cons_of_neg (by simp),
                List.filter_map]
              rfl
            rw [htgt, map_leafOut_cons, hwf.1]
          · rw [sibNodup, Bool.and_eq_true]
            refine ⟨?_, hdss⟩
            rw [nodupTitles_iff_nodup, hdst, ← nodupNames_iff_nodup]
            exact hwf.2.2.1
    · intro cs hsz hwf hkind
      cases cs with
      | nil => exact ⟨[], rfl, rfl, rfl, rfl⟩
      | cons c rest =>
        rw [wfList, Bool.and_eq_true] at hwf
        obtain ⟨d, hd, hdt, hdf, hdsn⟩ := ih.1 c (by simp at hsz; omega) hwf.1
          (fun x hx => hkind x (by rw [nodeInfosList, List.mem_append]; exact Or.inl hx))
        obtain ⟨ds, hds, hdst, hdsf, hdss⟩ := ih.2 rest (by simp at hsz; omega) hwf.2
          (fun x hx => hkind x (by rw [nodeInfosList, List.mem_append]; exact Or.inr hx))
        refine ⟨d :: ds, ?_, ?_, ?_, ?_⟩
        · rw [collectDataList, hd, hds]
        · rw [List.map_cons, List.map_cons, hdt, hdst]
        · rw [funcNodesList, hdf, hdsf]
          have hsplit : leafInfosList (c :: rest) = leafInfos c ++ leafInfosList rest := by
            rw [leafInfosList, show nodeInfosList (c :: rest)
              = nodeInfos c ++ nodeInfosList rest from rfl, List.filter_append]
            rfl
          rw [hsplit, List.map_append]
        · rw [sibNodupList, Bool.and_eq_true]
          exact ⟨hdsn, hdss⟩

/-- Under the invariant plus container-object consistency, the node triples
of the forest are exactly the union of the processed items' chain
triples. -/
theorem forestInv_mem_iff (items : List PyItem) (F : List Hier)
    (hInv : ForestInv items F)
    (hcons : ∀ t1 ∈ items, ∀ t2 ∈ items, ∀ p o1 o2,
      (p, o1, false) ∈ chainEntries t1 → (p, o2, false) ∈ chainEntries t2 → o1 = o2)
    (x : List String × PyItem × Bool) :
    x ∈ nodeInfosList F ↔ ∃ t ∈ items, x ∈ chainEntries t := by
  obtain ⟨hwf, hnd, hsound, hleaf, hcont⟩ := hInv
  constructor
  · exact hsound x
  · rintro ⟨t, ht, hx⟩
    obtain ⟨p, o, b⟩ := x
    cases b with
    | true =>
      obtain ⟨hp, ho⟩ := chain_mem_leaf (containersOf t) t p o hx
      rw [hp, ho]
      exact hleaf t ht
    | false =>
      obtain ⟨o2, ho2⟩ := hcont t ht p o hx
      obtain ⟨t2, ht2, hx2⟩ := hsound (p, o2, false) ho2
      rw [hcons t ht t2 ht2 p o o2 hx hx2]
      exact ho2

/-- A chain with exactly two containers has exactly the module triple, the
class triple and the leaf triple. -/
theorem chain2_mem (t m c : PyItem) (hL : containersOf t = [m, c])
    (x : List String × PyItem × Bool) (hx : x ∈ chainEntries t) :
    x = ([m.name], m, false) ∨ x = ([m.name, c.name], c, false) ∨
      x = ([m.name, c.name, t.name], t, true) := by
  rw [show chainEntries t = chainInfos (containersOf t) t from rfl, hL,
    show chainInfos [m, c] t
      = [([m.name], m, false), ([m.name, c.name], c, false),
         ([m.name, c.name, t.name], t, true)] from rfl] at hx
  rcases List.mem_cons.mp hx with h | hx
  · exact Or.inl h
  rcases List.mem_cons.mp hx with h | hx
  · exact Or.inr (Or.inl h)
  rcases List.mem_cons.mp hx with h | hx
  · exact Or.inr (Or.inr h)
  · cases hx

/-- C1: for every item list whose items all sit below at least one
container and whose paths are prefix-free (the formal rendering of
"names unique among siblings" across the discovered tree), the handler
succeeds and its output trees contain each leaf exactly once as a
Function-typed node at its ancestor name path: every leaf's annotated
triple appears, every Function-typed node is some leaf's triple, the
Function-node paths are pairwise distinct (so shared path prefixes end up
merged in one shared subtree, never duplicated), and sibling titles are
distinct at every level. -/
theorem tree_completeness (items : List PyItem)
    (hpar : ∀ t ∈ items, containersOf t ≠ [])
    (hpre : ∀ t1 ∈ items, ∀ t2 ∈ items, itemPath t1 <+: itemPath t2 → t1 = t2)
    (hleafk : ∀ t ∈ items, t.kind = "Function")
    (hcontk : ∀ t ∈ items, ∀ a ∈ containersOf t, a.kind ≠ "Function") :
    ∃ out, pytestCollectionFinish items = some out ∧
      (∀ t ∈ items,
        (itemPath t, reindentOpt t.doc, some (reindent t.src)) ∈ funcNodesList out) ∧
      (∀ y ∈ funcNodesList out, ∃ t ∈ items,
        y = (itemPath t, reindentOpt t.doc, some (reindent t.src))) ∧
      ((funcNodesList out).map (fun y => y.1)).Nodup ∧
      forestSibNodup out = true := by
  obtain ⟨F, hrun, hInv⟩ := master items hpar hpre
  obtain ⟨hwf, hnd, hsound, hleaf, hcont⟩ := hInv
  have hkind : ∀ x, x ∈ nodeInfosList F → (x.2.1.kind == "Function") = x.2.2 := by
    intro x hx
    obtain ⟨t, ht, hxt⟩ := hsound x hx
    obtain ⟨p, o, b⟩ := x
    cases b with
    | false =>
      obtain ⟨hmem, -, -⟩ := chain_mem_cont (containersOf t) t p o hxt
      show (o.kind == "Function") = false
      cases hk : o.kind == "Function" with
      | false => rfl
      | true => exact absurd (by simpa using hk) (hcontk t ht o hmem)
    | true =>
      obtain ⟨-, ho⟩ := chain_mem_leaf (containersOf t) t p o hxt
      show (o.kind == "Function") = true
      rw [ho, hleafk t ht]
      rfl
  obtain ⟨ds, hds, hdst, hdsf, hdss⟩ := (collectData_ok (sizeOf F)).2 F le_rfl hwf hkind
  refine ⟨ds, ?_, ?_, ?_, ?_, ?_⟩
  · rw [pytestCollectionFinish, hrun]
    exact hds
  · intro t ht
    rw [hdsf]
    refine List.mem_map.mpr ⟨(itemPath t, t, true), ?_, rfl⟩
    rw [leafInfosList]
    exact List.mem_filter.mpr ⟨hleaf t ht, rfl⟩
  · intro y hy
    rw [hdsf] at hy
    obtain ⟨x, hx, hxy⟩ := List.mem_map.mp hy
    rw [leafInfosList] at hx
    obtain ⟨hxn, hxl⟩ := List.mem_filter.mp hx
    obtain ⟨t, ht, hxt⟩ := hsound x hxn
    obtain ⟨p, o, b⟩ := x
    have hb : b = true := hxl
    subst hb
    obtain ⟨hp, ho⟩ := chain_mem_leaf (containersOf t) t p o hxt
    refine ⟨t, ht, ?_⟩
    rw [← hxy, hp, ho]
    rfl
  · have hnodup : ((nodeInfosList F).map (fun e => e.1)).Nodup :=
      (wf_paths_nodup (sizeOf F)).2 F le_rfl hwf hnd
    have hmm2 : (List.map leafOut (leafInfosList F)).map
        (fun y : List String × Option (List Char) × Option (List Char) => y.1)
        = (leafInfosList F).map (fun e => e.1) := by
      rw [List.map_map]
      rfl
    rw [hdsf, hmm2]
    have hsub : List.Sublist (leafInfosList F) (nodeInfosList F) := by
      rw [leafInfosList]
      exact List.filter_sublist _
    exact hnodup.sublist (hsub.map _)
  · rw [forestSibNodup, Bool.and_eq_true]
    refine ⟨?_, hdss⟩
    rw [nodupTitles_iff_nodup, hdst, ← nodupNames_iff_nodup]
    exact hnd

/-- Witness for C1 on the two concrete tests sharing one class and one
module: the handler succeeds and its output holds exactly the two
Function nodes at their shared-ancestor paths. -/
theorem tree_completeness_witness :
    ∃ out, pytestCollectionFinish [tA, tB] = some out ∧
      (∀ t ∈ [tA, tB],
        (itemPath t, reindentOpt t.doc, some (reindent t.src)) ∈ funcNodesList out) ∧
      (∀ y ∈ funcNodesList out, ∃ t ∈ [tA, tB],
        y = (itemPath t, reindentOpt t.doc, some (reindent t.src))) ∧
      ((funcNodesList out).map (fun y => y.1)).Nodup ∧
      forestSibNodup out = true := by
  refine tree_completeness [tA, tB] ?_ ?_ ?_ ?_
  · intro t ht
    rcases List.mem_cons.mp ht with rfl | ht
    · exact fun h => List.cons_ne_nil _ _ h
    rcases List.mem_cons.mp ht with rfl | ht
    · exact fun h => List.cons_ne_nil _ _ h
    · cases ht
  · intro t1 ht1 t2 ht2 hp
    rcases List.mem_cons.mp ht1 with rfl | ht1
    · rcases List.mem_cons.mp ht2 with rfl | ht2
      · rfl
      rcases List.mem_cons.mp ht2 with rfl | ht2
      · exact absurd hp (by decide)
      · cases ht2
    rcases List.mem_cons.mp ht1 with rfl | ht1
    · rcases List.mem_cons.mp ht2 with rfl | ht2
      · exact absurd hp (by decide)
      rcases List.mem_cons.mp ht2 with rfl | ht2
      · rfl
      · cases ht2
    · cases ht1
  · intro t ht
    rcases List.mem_cons.mp ht with rfl | ht
    · rfl
    rcases List.mem_cons.mp ht with rfl | ht
    · rfl
    · cases ht
  · intro t ht a ha
    rcases List.mem_cons.mp ht with rfl | ht
    · rcases List.mem_cons.mp ha with rfl | ha
      · exact (by decide : modI.kind ≠ "Function")
      rcases List.mem_cons.mp ha with rfl | ha
      · exact (by decide : clsI.kind ≠ "Function")
      · cases ha
    rcases List.mem_cons.mp ht with rfl | ht
    · rcases List.mem_cons.mp ha with rfl | ha
      · exact (by decide : modI.kind ≠ "Function")
      rcases List.mem_cons.mp ha with rfl | ha
      · exact (by decide : clsI.kind ≠ "Function")
      · cases ha
    · cases ht

/-- C4: merging the same discovered set of leaf items in any order gives
the same tree contents: for two permuted item lists (with containers below
the root, prefix-free paths, and container objects consistent along equal
paths — what holding the items of one session tree guarantees), both runs
of the handler loop succeed and the resulting forests carry exactly the
same node triples (same name paths, same objects, same leaf flags at every
level), so they differ at most in sibling insertion order. -/
theorem merge_order_independent (items items2 : List PyItem)
    (hperm : items.Perm items2)
    (hpar : ∀ t ∈ items, containersOf t ≠ [])
    (hpre : ∀ t1 ∈ items, ∀ t2 ∈ items, itemPath t1 <+: itemPath t2 → t1 = t2)
    (hcons : ∀ t1 ∈ items, ∀ t2 ∈ items, ∀ p o1 o2,
      (p, o1, false) ∈ chainEntries t1 → (p, o2, false) ∈ chainEntries t2 → o1 = o2) :
    ∃ F F2, collectionFinishAux items [] = some F ∧
      collectionFinishAux items2 [] = some F2 ∧
      ∀ x, x ∈ nodeInfosList F ↔ x ∈ nodeInfosList F2 := by
  have hmemiff : ∀ t, t ∈ items ↔ t ∈ items2 := fun t => hperm.mem_iff
  obtain ⟨F, hrun, hInv⟩ := master items hpar hpre
  obtain ⟨F2, hrun2, hInv2⟩ := master items2
    (fun t ht => hpar t ((hmemiff t).mpr ht))
    (fun t1 ht1 t2 ht2 hp => hpre t1 ((hmemiff t1).mpr ht1) t2 ((hmemiff t2).mpr ht2) hp)
  refine ⟨F, F2, hrun, hrun2, ?_⟩
  intro x
  rw [forestInv_mem_iff items F hInv hcons x,
    forestInv_mem_iff items2 F2 hInv2
      (fun t1 ht1 t2 ht2 => hcons t1 ((hmemiff t1).mpr ht1) t2 ((hmemiff t2).mpr ht2)) x]
  constructor
  · rintro ⟨t, ht, hx⟩
    exact ⟨t, (hmemiff t).mp ht, hx⟩
  · rintro ⟨t, ht, hx⟩
    exact ⟨t, (hmemiff t).mpr ht, hx⟩

/-- Witness for C4: the two concrete tests in both orders produce forests
with identical node triples. -/
theorem merge_order_independent_witness :
    ∃ F F2, collectionFinishAux [tA, tB] [] = some F ∧
      collectionFinishAux [tB, tA] [] = some F2 ∧
      ∀ x, x ∈ nodeInfosList F ↔ x ∈ nodeInfosList F2 := by
  have hcont2 : ∀ t ∈ [tA, tB], containersOf t = [modI, clsI] := by
    intro t ht
    rcases List.mem_cons.mp ht with rfl | ht
    · rfl
    rcases List.mem_cons.mp ht with rfl | ht
    · rfl
    · cases ht
  refine merge_order_independent [tA, tB] [tB, tA] (List.Perm.swap tB tA []) ?_ ?_ ?_
  · intro t ht
    rw [hcont2 t ht]
    exact fun h => List.cons_ne_nil _ _ h
  · intro t1 ht1 t2 ht2 hp
    rcases List.mem_cons.mp ht1 with rfl | ht1
    · rcases List.mem_cons.mp ht2 with rfl | ht2
      · rfl
      rcases List.mem_cons.mp ht2 with rfl | ht2
      · exact absurd hp (by decide)
      · cases ht2
    rcases List.mem_cons.mp ht1 with rfl | ht1
    · rcases List.mem_cons.mp ht2 with rfl | ht2
      · exact absurd hp (by decide)
      rcases List.mem_cons.mp ht2 with rfl | ht2
      · rfl
      · cases ht2
    · cases ht1
  · intro t1 ht1 t2 ht2 p o1 o2 h1 h2
    rcases chain2_mem t1 modI clsI (hcont2 t1 ht1) (p, o1, false) h1 with h | h | h
    · rw [Prod.mk.injEq, Prod.mk.injEq] at h
      obtain ⟨hp1, ho1, -⟩ := h
      rcases chain2_mem t2 modI clsI (hcont2 t2 ht2) (p, o2, false) h2 with g | g | g
      · rw [Prod.mk.injEq, Prod.mk.injEq] at g
        obtain ⟨-, ho2, -⟩ := g
        rw [ho1, ho2]
      · rw [Prod.mk.injEq, Prod.mk.injEq] at g
        obtain ⟨hp2, -, -⟩ := g
        rw [hp1] at hp2
        exact absurd hp2 (by decide)
      · rw [Prod.mk.injEq, Prod.mk.injEq] at g
        obtain ⟨-, -, hb⟩ := g
        cases hb
    · rw [Prod.mk.injEq, Prod.mk.injEq] at h
      obtain ⟨hp1, ho1, -⟩ := h
      rcases chain2_mem t2 modI clsI (hcont2 t2 ht2) (p, o2, false) h2 with g | g | g
      · rw [Prod.mk.injEq, Prod.mk.injEq] at g
        obtain ⟨hp2, -, -⟩ := g
        rw [hp1] at hp2
        exact absurd hp2 (by decide)
      · rw [Prod.mk.injEq, Prod.mk.injEq] at g
        obtain ⟨-, ho2, -⟩ := g
        rw [ho1, ho2]
      · rw [Prod.mk.injEq, Prod.mk.injEq] at g
        obtain ⟨-, -, hb⟩ := g
        cases hb
    · rw [Prod.mk.injEq, Prod.mk.injEq] at h
      obtain ⟨-, -, hb⟩ := h
      cases hb

/-- C10 counterexample: both leaves have a container between them and the
null-parent root (their parent's parent is non-null, so the claimed
precondition holds), yet a Function named `A` and a Class named `A` under
the same module make the merge read `children` off the leaf entry stored
first: the loop hits the modelled `KeyError` and fails. -/
theorem grandparent_not_sufficient_counterexample :
    (∀ t ∈ [leafA, tF], containersOf t ≠ []) ∧
    collectionFinishAux [leafA, tF] [] = none := by
  constructor
  · intro t ht
    rcases List.mem_cons.mp ht with rfl | ht
    · exact fun h => List.cons_ne_nil _ _ h
    rcases List.mem_cons.mp ht with rfl | ht
    · exact fun h => List.cons_ne_nil _ _ h
    · cases ht
  · rfl

/-- C10 (amended): the grandparent condition alone does not make the
`children` lookups safe; strengthened with prefix-free item paths (no two
distinct items whose name paths are equal or extend one another), every
`children` access taken by the handler loop and the recursive merge
succeeds and the loop returns a forest. -/
theorem merge_key_safety (items : List PyItem)
    (hpar : ∀ t ∈ items, containersOf t ≠ [])
    (hpre : ∀ t1 ∈ items, ∀ t2 ∈ items, itemPath t1 <+: itemPath t2 → t1 = t2) :
    ∃ F, collectionFinishAux items [] = some F := by
  obtain ⟨F, hrun, -⟩ := master items hpar hpre
  exact ⟨F, hrun⟩

/-- Witness for the amended C10: under the strengthened precondition the
loop succeeds on the two concrete tests, in the swapped order. -/
theorem merge_key_safety_witness :
    ∃ F, collectionFinishAux [tB, tA] [] = some F := by
  refine merge_key_safety [tB, tA] ?_ ?_
  · intro t ht
    rcases List.mem_cons.mp ht with rfl | ht
    · exact fun h => List.cons_ne_nil _ _ h
    rcases List.mem_cons.mp ht with rfl | ht
    · exact fun h => List.cons_ne_nil _ _ h
    · cases ht
  · intro t1 ht1 t2 ht2 hp
    rcases List.mem_cons.mp ht1 with rfl | ht1
    · rcases List.mem_cons.mp ht2 with rfl | ht2
      · rfl
      rcases List.mem_cons.mp ht2 with rfl | ht2
      · exact absurd hp (by decide)
      · cases ht2
    rcases List.mem_cons.mp ht1 with rfl | ht1
    · rcases List.mem_cons.mp ht2 with rfl | ht2
      · exact absurd hp (by decide)
      rcases List.mem_cons.mp ht2 with rfl | ht2
      · rfl
      · cases ht2
    · cases ht1
